import Mathlib

/-
Shallow embedding of `src/pyactup_v2.py` (PyACTUp with spreading activation).

Modelling conventions:
* Attribute (slot) names are modelled as `ℕ` and attribute values as `ℤ`
  (Python uses strings / arbitrary hashable values; only decidable equality
  and a linear order on slot names, used by `sorted`, matter here).
* Python floats are modelled as exact numbers: rationals for times and the
  tunable parameters that feed decidable tests, reals for activation values
  (which involve `log`, `exp` and `x ** y`).
* `random.uniform` draws are passed in explicitly as parameters (the noise
  draw `p` and the importance draw); the engine is otherwise deterministic.
* The per-Memory transcendental caches (`_expt_cache` / `_ln_cache`) are kept
  as state (the decay setter replaces them) but reads are modelled
  transparently: a populated entry always equals the recomputed value for the
  current decay, because the caches are wiped whenever decay changes, so
  `_cached_expt` / `_cached_ln` are modelled as the direct computation.
* Python exceptions are modelled with `Except PyErr`; the `Chunk` name
  counter (a class variable, not per-Memory state) is not modelled.
-/

/-- Kinds of Python exceptions the embedded code can raise. -/
inductive PyErr where
  | valueError
  | typeError
  | runtimeError
deriving DecidableEq, Repr

/-- A chunk's reference history: a plain count under optimized learning,
otherwise the ordered list of reinforcement times. -/
inductive Refs where
  | opt (n : ℤ)
  | full (l : List ℚ)
deriving DecidableEq, Repr

/-- The `_ln_1_mius_d` field: either `ln(1 - decay)` or the string
sentinel `"illegal value"` the decay setter stores before raising. -/
inductive LnField where
  | val (r : ℝ)
  | illegal

/-- The `importance` argument of `learn`: Python distinguishes `None`,
`False` and a number (the declared default is the number `0`). -/
inductive ImpArg where
  | noneA
  | falseA
  | num (q : ℚ)
deriving DecidableEq

/-- Slot (attribute) names. -/
abbrev Slot := ℕ

/-- Attribute values. -/
abbrev Val := ℤ

/-- A cue / kwargs: a list of slot-value pairs in keyword order. -/
abbrev Cond := List (Slot × Val)

/-- A chunk-store key: the sorted tuple of attribute pairs. -/
abbrev Sig := List (Slot × Val)

/-- One record of the diagnostic `activation_history`. -/
structure HistEntry where
  creationTime : ℚ
  attributes : List (Slot × Val)
  references : Refs
  baseActivation : ℝ
  activationNoise : ℝ
  spreadingActivation : Option ℝ
  importance : ℝ
  mismatchV : Option ℝ
  activationV : Option ℝ
  retrievalProbability : Option (Option ℝ)

/-- A learned item (`class Chunk`): its attribute mapping plus bookkeeping.
`memo` is the memoized `(computed_at_time, base_activation)` pair
(`_base_activation_time`, `_base_activation`). -/
structure Chunk where
  content : List (Slot × Val)
  creation : ℚ
  refs : Refs
  memo : Option (ℚ × ℝ)
  spreading : Option ℝ
  importance : ℝ

/-- A `Memory` object: the chunk store (insertion-ordered association list,
as a Python dict), the clock, the tunable parameters, the derived fields,
and the pluggable-function slots (class variables in the source, carried
here on the instance). -/
structure Memory where
  chunks : List (Sig × Chunk)
  time : ℚ
  noise : ℚ
  decay : ℚ
  ln1md : LnField
  exptCache : List (Option ℝ)
  lnCache : List (Option ℝ)
  temperatureParam : Option ℚ
  temperature : ℝ
  thresholdV : ℝ
  mismatch : Option ℝ
  optimized : Bool
  Wp : ℝ
  mas : ℝ
  history : Option (List HistEntry)
  useActrMatching : Bool
  matchingFn : Option (Cond → Except PyErr (List (List Bool)))
  useActrSji : Bool
  sjiFn : Option (List (List Bool) → Except PyErr (List ℝ))
  useActrSim : Bool
  simFns : Slot → Option (Val → Val → Option ℚ)

/-- The chunks of the store in iteration order (`self.values()`). -/
def Memory.chunkList (m : Memory) : List Chunk := m.chunks.map Prod.snd

/-- Value of a chunk's slot (`chunk[key]` / `dict.get`). -/
def Chunk.get? (c : Chunk) (s : Slot) : Option Val :=
  (c.content.find? (fun p => p.1 == s)).map Prod.snd

/-- The values stored in a chunk (`chunk.values()`). -/
def Chunk.valueList (c : Chunk) : List Val := c.content.map Prod.snd

/-- `conditions.keys() <= chunk.keys()`: the cue only mentions slots the
chunk has. -/
def Chunk.qualifies (c : Chunk) (cond : Cond) : Bool :=
  cond.all (fun sv => (c.get? sv.1).isSome)

/-- Full exact match: cue slots are present with equal values (the subset
test plus the value-equality loop of `_exact_match`). -/
def Chunk.exactMatches (c : Chunk) (cond : Cond) : Bool :=
  cond.all (fun sv => c.get? sv.1 == some sv.2)

/-- Stable insertion of a pair into a slot-sorted list (helper for
`signatureOf`). -/
def insertPair (p : Slot × Val) : Sig → Sig
  | [] => [p]
  | q :: t => if p.1 ≤ q.1 then p :: q :: t else q :: insertPair p t

/-- `tuple(sorted(kwargs.items()))`: the canonical signature.  Keyword
names are unique, so Python's sort orders the pairs by slot name; a stable
insertion sort by slot reproduces it. -/
def signatureOf (attrs : Cond) : Sig := attrs.foldr insertPair []

/-- Look up a signature in the chunk store (`self.get(signature)`). -/
def Memory.findChunk (m : Memory) (sig : Sig) : Option Chunk :=
  (m.chunks.find? (fun e => e.1 == sig)).map Prod.snd

/-- Replace the chunk stored under a signature (in-place mutation of the
found chunk object in the source; dict keys are unique). -/
def updateStore (sig : Sig) (f : Chunk → Chunk) (l : List (Sig × Chunk)) :
    List (Sig × Chunk) :=
  l.map (fun e => if e.1 == sig then (e.1, f e.2) else e)

/-- Remove a signature from the chunk store (`del self[signature]`). -/
def removeStore (sig : Sig) (l : List (Sig × Chunk)) : List (Sig × Chunk) :=
  l.filter (fun e => !(e.1 == sig))

/-- The observable core of a chunk: everything except the base-activation
memo (used to state frame properties). -/
def Chunk.core (c : Chunk) : List (Slot × Val) × ℚ × Refs × Option ℝ × ℝ :=
  (c.content, c.creation, c.refs, c.spreading, c.importance)

/-- The chunk store with each chunk projected to its observable core. -/
def Memory.storeCore (m : Memory) : List (Sig × (List (Slot × Val) × ℚ × Refs × Option ℝ × ℝ)) :=
  m.chunks.map (fun e => (e.1, e.2.core))

noncomputable section

/-- `math.pow x y` when it does not raise: `rpow` for a positive base, the
IEEE conventions at zero, and an integer power for a negative base (the
guard in `pyPow` ensures `y` is integral there). -/
def powVal (x y : ℚ) : ℝ :=
  if 0 < x then Real.rpow (x : ℝ) (y : ℝ)
  else if x = 0 then (if y = 0 then 1 else 0)
  else (x : ℝ) ^ y.num

/-- `math.pow` with its `ValueError` domain: zero base with negative
exponent, or negative base with non-integral exponent. -/
def pyPow (x y : ℚ) : Except PyErr ℝ :=
  if x = 0 ∧ y < 0 then .error .valueError
  else if x < 0 ∧ y.den ≠ 1 then .error .valueError
  else .ok (powVal x y)

/-- `math.log` on a rational argument (`ValueError` outside the domain). -/
def pyLog (x : ℚ) : Except PyErr ℝ :=
  if x ≤ 0 then .error .valueError else .ok (Real.log x)

/-- `math.log` on a real argument (the sum of powers in the non-optimized
base-activation formula). -/
def pyLogR (x : ℝ) : Except PyErr ℝ :=
  if x ≤ 0 then .error .valueError else .ok (Real.log x)

/-- `Memory._make_noise`: zero when the noise parameter is zero, otherwise a
logistic transform of the uniform draw `p`. -/
def makeNoise (m : Memory) (p : ℚ) : ℝ :=
  if m.noise = 0 then 0 else (m.noise : ℝ) * Real.log ((1 - (p : ℝ)) / (p : ℝ))

/-- `sum(self._cached_expt(time - ref) for ref in refs)`, evaluated left to
right, propagating the first `ValueError`. -/
def sumPows (m : Memory) : List ℚ → Except PyErr ℝ
  | [] => .ok 0
  | r :: rest =>
    match pyPow (m.time - r) (-m.decay) with
    | .error e => .error e
    | .ok v =>
      match sumPows m rest with
      | .error e => .error e
      | .ok s => .ok (v + s)

/-- The body of `_get_base_activation`'s `try` block: the optimized-learning
formula `ln(refs) - ln(1-d) - d*ln(t - creation)` or the exact formula
`ln(Σ (t-ref)^(-d))`, with Python's evaluation order.  A refs field of the
wrong shape for the mode gives a `TypeError` (unreachable in practice). -/
def computeBase (m : Memory) (c : Chunk) : Except PyErr ℝ :=
  if m.optimized then
    match c.refs with
    | .opt n =>
      match pyLog (n : ℚ) with
      | .error e => .error e
      | .ok lnRefs =>
        match m.ln1md with
        | .illegal => .error .typeError
        | .val lnD =>
          match pyLog (m.time - c.creation) with
          | .error e => .error e
          | .ok lnT => .ok (lnRefs - lnD - (m.decay : ℝ) * lnT)
    | .full _ => .error .typeError
  else
    match c.refs with
    | .full l =>
      match sumPows m l with
      | .error e => .error e
      | .ok s => pyLogR s
    | .opt _ => .error .typeError

/-- The recompute path of `_get_base_activation`: on success the memo pair
is written; a `ValueError` is converted to the temporal-consistency
`RuntimeError` when `time ≤ creation` and re-raised unchanged otherwise. -/
def recomputeBase (m : Memory) (c : Chunk) : Except PyErr (ℝ × Chunk) :=
  match computeBase m c with
  | .ok v => .ok (v, { c with memo := some (m.time, v) })
  | .error .valueError =>
      .error (if m.time ≤ c.creation then .runtimeError else .valueError)
  | .error e => .error e

/-- `Chunk._get_base_activation`: return the memoized value when it was
computed for the current time, otherwise recompute (and re-memoize). -/
def getBaseActivation (m : Memory) (c : Chunk) : Except PyErr (ℝ × Chunk) :=
  match c.memo with
  | some (t, v) => if t = m.time then .ok (v, c) else recomputeBase m c
  | none => recomputeBase m c

end

noncomputable section

/-- Pure value of `_get_base_activation` (the first component). -/
def baseActivationVal (m : Memory) (c : Chunk) : Except PyErr ℝ :=
  (getBaseActivation m c).map Prod.fst

/-- `Chunk._activation`: base + spreading + importance + noise, with the
chunk's memo updated and a diagnostic record produced when the history is
enabled.  `p` is this call's uniform noise draw.  A falsy (unset or zero)
spreading accumulator contributes 0. -/
def runActivation (m : Memory) (c : Chunk) (p : ℚ) (forPartial : Bool) :
    Except PyErr (ℝ × Chunk × Option HistEntry) :=
  match getBaseActivation m c with
  | .error e => .error e
  | .ok (base, c') =>
    let noiseV := makeNoise m p
    let spreadV : ℝ := c.spreading.getD 0
    let imp := c.importance
    let result := base + spreadV + imp + noiseV
    let entry : Option HistEntry :=
      if m.history.isSome then
        some { creationTime := c.creation
               attributes := c.content
               references := c.refs
               baseActivation := base
               activationNoise := noiseV
               spreadingActivation := c.spreading
               importance := imp
               mismatchV := none
               activationV := if forPartial then none else some result
               retrievalProbability := none }
      else none
    .ok (result, c', entry)

/-- Pure value of `Chunk._activation`. -/
def activationVal (m : Memory) (c : Chunk) (p : ℚ) : Except PyErr ℝ :=
  (baseActivationVal m c).map
    (fun b => b + c.spreading.getD 0 + c.importance + makeNoise m p)

/-- The loop of `Memory._exact_match`: walk the store in iteration order,
keeping the best chunk; a chunk whose activation `a` satisfies
`a >= best_activation` replaces the current best.  The accumulator starts
at `(None, threshold)`.  Returns the best chunk, the store after the memo
updates, and the appended history records.  `draws i` is the noise draw
used for the chunk at position `i`. -/
def exactMatchGo (m : Memory) (cond : Cond) (draws : ℕ → ℚ) :
    List (Sig × Chunk) → ℕ → Option Chunk → ℝ →
    Except PyErr (Option Chunk × List (Sig × Chunk) × List HistEntry)
  | [], _, best, _ => .ok (best, [], [])
  | e :: rest, i, best, bestA =>
    if e.2.exactMatches cond then
      match runActivation m e.2 (draws i) false with
      | .error err => .error err
      | .ok (a, c', h) =>
        let acc := if bestA ≤ a then (some c', a) else (best, bestA)
        match exactMatchGo m cond draws rest (i + 1) acc.1 acc.2 with
        | .error err => .error err
        | .ok (b, l, hs) => .ok (b, (e.1, c') :: l, h.toList ++ hs)
    else
      match exactMatchGo m cond draws rest (i + 1) best bestA with
      | .error err => .error err
      | .ok (b, l, hs) => .ok (b, e :: l, hs)

/-- `Memory._exact_match` as a state transformer. -/
def Memory.exactMatch (m : Memory) (cond : Cond) (draws : ℕ → ℚ) :
    Except PyErr (Option Chunk × Memory) :=
  match exactMatchGo m cond draws m.chunks 0 none m.thresholdV with
  | .error e => .error e
  | .ok (b, l, hs) =>
    .ok (b, { m with chunks := l, history := m.history.map (· ++ hs) })

/-- `Memory._similarity`: 0 on equal values; otherwise the registered
function's result clamped into the configured range and shifted by -1 in
the natural (non-ACT-R) mode; -1 when no function is registered or the
function returns `None`. -/
def similarityVal (m : Memory) (x y : Val) (s : Slot) : ℚ :=
  if x = y then 0
  else
    let lo : ℚ := if m.useActrSim then -1 else 0
    let hi : ℚ := if m.useActrSim then 0 else 1
    match m.simFns s with
    | none => -1
    | some f =>
      match f x y with
      | none => -1
      | some r =>
        let r2 := if r < lo then lo else if hi < r then hi else r
        if m.useActrSim then r2 else r2 - 1

/-- The mismatch term of the `_Activations` iterator:
`mismatch * Σ similarity(cueValue, chunk[slot], slot)`. -/
def mismatchTerm (m : Memory) (mp : ℝ) (cond : Cond) (c : Chunk) : ℝ :=
  mp * ((cond.map (fun sv => (similarityVal m sv.2 ((c.get? sv.1).getD 0) sv.1 : ℝ))).sum)

/-- What the `_Activations` iterator yields for one chunk: `none` when the
chunk is skipped (cue not a key-subset, or, with partial matching disabled,
a value mismatch), otherwise the retrieval total. -/
def iterCandidate (m : Memory) (cond : Cond) (c : Chunk) (p : ℚ) :
    Option (Except PyErr ℝ) :=
  if c.qualifies cond then
    match m.mismatch with
    | some mp =>
      some ((activationVal m c p).map (fun a => a + mismatchTerm m mp cond c))
    | none =>
      if c.exactMatches cond then some (activationVal m c p) else none
  else none

/-- One step of the `_Activations` iterator on one chunk, with state:
`none` when the chunk is skipped, otherwise the total retrieval value, the
memo-updated chunk and the history record (augmented with the mismatch and
activation entries the iterator writes). -/
def iterStep (m : Memory) (cond : Cond) (c : Chunk) (p : ℚ) :
    Except PyErr (Option (ℝ × Chunk × Option HistEntry)) :=
  if c.qualifies cond then
    match m.mismatch with
    | some mp =>
      match runActivation m c p true with
      | .error e => .error e
      | .ok (a, c', h) =>
        let mis := mismatchTerm m mp cond c
        let total := a + mis
        .ok (some (total, c',
          h.map (fun e0 => { e0 with mismatchV := some mis, activationV := some total })))
    | none =>
      if c.exactMatches cond then
        match runActivation m c p true with
        | .error e => .error e
        | .ok (a, c', h) =>
          .ok (some (a, c', h.map (fun e0 => { e0 with activationV := some a })))
      else .ok none
  else .ok none

/-- The loop of `Memory._partial_match`: any yielded chunk whose value is
`>= threshold` replaces the current best (the comparison is against the
threshold, not the best so far, as in the source). -/
def pMatchGo (m : Memory) (cond : Cond) (draws : ℕ → ℚ) :
    List (Sig × Chunk) → ℕ → Option Chunk →
    Except PyErr (Option Chunk × List (Sig × Chunk) × List HistEntry)
  | [], _, best => .ok (best, [], [])
  | e :: rest, i, best =>
    match iterStep m cond e.2 (draws i) with
    | .error err => .error err
    | .ok none =>
      match pMatchGo m cond draws rest (i + 1) best with
      | .error err => .error err
      | .ok (b, l, hs) => .ok (b, e :: l, hs)
    | .ok (some (total, c', h)) =>
      let best' := if m.thresholdV ≤ total then some c' else best
      match pMatchGo m cond draws rest (i + 1) best' with
      | .error err => .error err
      | .ok (b, l, hs) => .ok (b, (e.1, c') :: l, h.toList ++ hs)

/-- `Memory._partial_match` as a state transformer. -/
def Memory.pMatch (m : Memory) (cond : Cond) (draws : ℕ → ℚ) :
    Except PyErr (Option Chunk × Memory) :=
  match pMatchGo m cond draws m.chunks 0 none with
  | .error e => .error e
  | .ok (b, l, hs) =>
    .ok (b, { m with chunks := l, history := m.history.map (· ++ hs) })

/-- `Memory.retrieve`. -/
def Memory.retrieve (m : Memory) (usePartial : Bool) (cond : Cond) (draws : ℕ → ℚ) :
    Except PyErr (Option Chunk × Memory) :=
  if usePartial then m.pMatch cond draws else m.exactMatch cond draws

end

/-- `Memory._actr_matching_source2chunk`: one row per cue slot (the outer
loop of the source runs over `conditions.items()`), one column per chunk;
a cell is true iff the cue value occurs among the chunk's values. -/
def actrMatchingSource2chunk (chunks : List Chunk) (cond : Cond) : List (List Bool) :=
  cond.map (fun sv => chunks.map (fun c => decide (sv.2 ∈ c.valueList)))

/-- `np.sum` of one boolean row. -/
def rowCount (row : List Bool) : ℕ := (row.filter id).length

noncomputable section

/-- `Memory._actr_sji`: `fan = rowSum(matrix) + 1` (one entry per matrix
row, i.e. per cue slot) and `sji = mas - ln(fan)`. -/
def actrSji (mas : ℝ) (mm : List (List Bool)) : List ℝ :=
  mm.map (fun row => mas - Real.log ((rowCount row : ℝ) + 1))

/-- `np.sum(wj * sji * match_matrix.T, axis=1)` for a rectangular matrix
`mm` with one row per cue slot: entry `i` is
`Σ_j wj * sji_j * mm[j][i]`.  `n` is the number of columns (chunks). -/
def combineSpread (wj : ℝ) (sji : List ℝ) (mm : List (List Bool)) (n : ℕ) : List ℝ :=
  (List.range n).map (fun i =>
    ((List.range mm.length).map (fun j =>
      wj * sji.getD j 0 * (if (mm.getD j []).getD i false then (1 : ℝ) else 0))).sum)

/-- `Memory._compute_spreading_activation_vec` on the default strategy
functions: the matching matrix, the uniform per-slot weight `W/M`, the
default `sji`, and the combined per-chunk sums. -/
def computeSpreadingVec (chunks : List Chunk) (cond : Cond) (W mas : ℝ) : List ℝ :=
  let mm := actrMatchingSource2chunk chunks cond
  let wj : ℝ := W / (cond.length : ℝ)
  let sji := actrSji mas mm
  combineSpread wj sji mm chunks.length

/-- `Memory._matching_source2chunk`: the dispatcher between the default
matching-matrix function and an installed custom one; a raising (or
missing) custom function produces a warning (the boolean) and falls back
to the default for this call. -/
def Memory.matchingDispatch (m : Memory) (cond : Cond) : List (List Bool) × Bool :=
  if m.useActrMatching then (actrMatchingSource2chunk m.chunkList cond, false)
  else
    match m.matchingFn with
    | none => (actrMatchingSource2chunk m.chunkList cond, true)
    | some f =>
      match f cond with
      | .ok r => (r, false)
      | .error _ => (actrMatchingSource2chunk m.chunkList cond, true)

/-- `Memory._sji`: the dispatcher between the default `sji` function and an
installed custom one, with the same warn-and-fall-back behavior. -/
def Memory.sjiDispatch (m : Memory) (mm : List (List Bool)) : List ℝ × Bool :=
  if m.useActrSji then (actrSji m.mas mm, false)
  else
    match m.sjiFn with
    | none => (actrSji m.mas mm, true)
    | some f =>
      match f mm with
      | .ok r => (r, false)
      | .error _ => (actrSji m.mas mm, true)

/-- `Memory._compute_spreading_activation_vec` through the dispatchers; the
boolean records whether any fallback warning was emitted.  The number of
matrix columns is read off the first row, as `match_matrix.T` does. -/
def Memory.spreadVecM (m : Memory) (cond : Cond) : List ℝ × Bool :=
  let md := m.matchingDispatch cond
  let wj : ℝ := m.Wp / (cond.length : ℝ)
  let sd := m.sjiDispatch md.1
  (combineSpread wj sd.1 md.1 (md.1.headD []).length, md.2 || sd.2)

/-- The `spreading_activation` setter: Python adds only when both the new
value and the stored accumulator are truthy (non-`None` and nonzero);
otherwise the accumulator is overwritten with the new value. -/
def Chunk.setSpreading (c : Chunk) (v : Option ℝ) : Chunk :=
  match v, c.spreading with
  | some x, some y =>
    if x ≠ 0 ∧ y ≠ 0 then { c with spreading := some (y + x) }
    else { c with spreading := some x }
  | _, _ => { c with spreading := v }

/-- `Memory.clear_spread`: every accumulator back to unset. -/
def Memory.clear_spread (m : Memory) : Memory :=
  { m with chunks := m.chunks.map (fun e => (e.1, e.2.setSpreading none)) }

/-- `Memory.spread`: empty cue is a usage error; optionally clear first;
compute the vector; a length mismatch with the store is the fatal
`RuntimeError`; otherwise each chunk's accumulator is updated through the
setter. -/
def Memory.spread (m : Memory) (autoClear : Bool) (cond : Cond) :
    Except PyErr Memory :=
  if cond.isEmpty then .error .valueError
  else
    let m1 := if autoClear then m.clear_spread else m
    let vec := (m1.spreadVecM cond).1
    if vec.length ≠ m1.chunks.length then .error .runtimeError
    else .ok { m1 with
      chunks := List.zipWith (fun e v => (e.1, e.2.setSpreading (some v))) m1.chunks vec }

/-- The `importance` setter: an explicit `None` (or `False`) triggers the
random fallback `log(p)` with `p` drawn uniformly from `(ε, 2-ε)`; any
number is stored as a float. -/
def Chunk.setImportance (c : Chunk) (v : ImpArg) (p : ℚ) : Chunk :=
  match v with
  | .noneA => { c with importance := Real.log (p : ℝ) }
  | .falseA => { c with importance := Real.log (p : ℝ) }
  | .num q => { c with importance := (q : ℝ) }

/-- A fresh chunk (`Chunk.__init__`): content, creation time, empty
references for the current learning mode, unset memo and accumulator,
importance 0. -/
def Chunk.new (m : Memory) (attrs : Cond) : Chunk :=
  { content := attrs
    creation := m.time
    refs := if m.optimized then .opt 0 else .full []
    memo := none
    spreading := none
    importance := 0 }

/-- The reference bookkeeping of `learn`: the learning mode decides whether
the count is incremented or the current time appended.  A refs field of the
wrong shape for the mode never occurs (chunks are created for the current
mode and `reset` clears the store whenever the mode flips), so it is left
unchanged here. -/
def Chunk.addReference (c : Chunk) (m : Memory) : Chunk :=
  if m.optimized then
    match c.refs with
    | .opt n => { c with refs := .opt (n + 1) }
    | .full _ => c
  else
    match c.refs with
    | .full l => { c with refs := .full (l ++ [m.time]) }
    | .opt _ => c

/-- `Memory.learn`: no attributes is a usage error; a novel signature
creates and appends a chunk, an existing one is reinforced; the importance
is overwritten on every call (`p` is the uniform draw consumed when the
argument is `None`/`False`; the Python default argument is the number 0). -/
def Memory.learn (m : Memory) (imp : ImpArg) (attrs : Cond) (p : ℚ) :
    Except PyErr (Bool × Memory) :=
  if attrs.isEmpty then .error .valueError
  else
    let sig := signatureOf attrs
    match m.findChunk sig with
    | some _ =>
      let l := updateStore sig (fun c => (c.addReference m).setImportance imp p) m.chunks
      .ok (false, { m with chunks := l })
    | none =>
      let c := (((Chunk.new m attrs)).addReference m).setImportance imp p
      .ok (true, { m with chunks := m.chunks ++ [(sig, c)] })

/-- `Memory.forget`: no attributes is a usage error; a missing chunk gives
`False` with nothing changed.  Under optimized learning the reference count
is decremented unconditionally (the source never consults `when` in this
branch); otherwise the first occurrence of `when` is removed from the
reference list, a missing occurrence giving `False` with nothing changed.
A chunk left with no references is deleted.  A refs shape mismatching the
mode (unreachable, see `Chunk.addReference`) is a `TypeError` stand-in for
the exception Python would raise. -/
def Memory.forget (m : Memory) (wh : ℚ) (attrs : Cond) :
    Except PyErr (Bool × Memory) :=
  if attrs.isEmpty then .error .valueError
  else
    let sig := signatureOf attrs
    match m.findChunk sig with
    | none => .ok (false, m)
    | some c =>
      if m.optimized then
        match c.refs with
        | .full _ => .error .typeError
        | .opt n =>
          if n - 1 = 0 then .ok (true, { m with chunks := removeStore sig m.chunks })
          else
            let l0 := updateStore sig (fun c0 => { c0 with refs := .opt (n - 1) }) m.chunks
            .ok (true, { m with chunks := l0 })
      else
        match c.refs with
        | .opt _ => .error .typeError
        | .full l =>
          if wh ∈ l then
            let l2 := l.erase wh
            if l2.isEmpty then .ok (true, { m with chunks := removeStore sig m.chunks })
            else
              let l0 := updateStore sig (fun c0 => { c0 with refs := .full l2 }) m.chunks
              .ok (true, { m with chunks := l0 })
          else .ok (false, m)

/-- The fresh (all-`None`) transcendental cache installed by the decay
setter. -/
def freshCache : List (Option ℝ) := List.replicate 1000 none

/-- The `decay` setter as a state transformer returning the new state and
the raised exception, if any: negative values raise before any mutation;
values below one update the derived `ln(1-d)` field, wipe both caches and
store the decay; values at or above one with optimized learning store the
string sentinel in the derived field and then raise; otherwise (not
optimized) the caches are wiped and the decay stored with the derived
field left stale. -/
def Memory.setDecay (m : Memory) (v : ℚ) : Memory × Option PyErr :=
  if v < 0 then (m, some .valueError)
  else if v < 1 then
    ({ m with
        ln1md := .val (Real.log ((1 : ℝ) - (v : ℝ))),
        exptCache := freshCache, lnCache := freshCache, decay := v }, none)
  else if m.optimized then
    ({ m with ln1md := .illegal }, some .valueError)
  else
    ({ m with exptCache := freshCache, lnCache := freshCache, decay := v }, none)

/-- The loop of `Memory.blend`: for every chunk the iterator yields, skip
it if it lacks the outcome attribute, otherwise accumulate
`exp(total / temperature)` and the weighted outcome; collected history
records are paired with the weight when the chunk contributes. -/
def blendGo (m : Memory) (out : Slot) (cond : Cond) (draws : ℕ → ℚ) :
    List (Sig × Chunk) → ℕ →
    Except PyErr (ℝ × ℝ × List (Sig × Chunk) × List (HistEntry × Option ℝ))
  | [], _ => .ok (0, 0, [], [])
  | e :: rest, i =>
    match iterStep m cond e.2 (draws i) with
    | .error err => .error err
    | .ok none =>
      match blendGo m out cond draws rest (i + 1) with
      | .error err => .error err
      | .ok (w, wo, l, hs) => .ok (w, wo, e :: l, hs)
    | .ok (some (total, c', h)) =>
      match c'.get? out with
      | none =>
        match blendGo m out cond draws rest (i + 1) with
        | .error err => .error err
        | .ok (w, wo, l, hs) =>
          .ok (w, wo, (e.1, c') :: l, (h.map (·, none)).toList ++ hs)
      | some v =>
        let weight := Real.exp (total / m.temperature)
        match blendGo m out cond draws rest (i + 1) with
        | .error err => .error err
        | .ok (w, wo, l, hs) =>
          .ok (weight + w, weight * (v : ℝ) + wo, (e.1, c') :: l,
            (h.map (·, some weight)).toList ++ hs)

/-- `Memory.blend`: the weighted average of the outcome attribute, `None`
when no weight accumulates (the `ZeroDivisionError` handlers); each
contributing history record receives its retrieval probability in a second
pass. -/
def Memory.blend (m : Memory) (out : Slot) (cond : Cond) (draws : ℕ → ℚ) :
    Except PyErr (Option ℝ × Memory) :=
  match blendGo m out cond draws m.chunks 0 with
  | .error e => .error e
  | .ok (w, wo, l, hs) =>
    let finalize : HistEntry × Option ℝ → HistEntry := fun ew =>
      match ew.2 with
      | none => ew.1
      | some wt =>
        let prob : Option (Option ℝ) := some (if w = 0 then none else some (wt / w))
        { ew.1 with retrievalProbability := prob }
    let res : Option ℝ := if w = 0 then none else some (wo / w)
    .ok (res, { m with chunks := l, history := m.history.map (· ++ hs.map finalize) })

end

noncomputable section

/-- Modelled from the claim's words (and spec section 4.4): the N-by-M
chunk-by-slot matching matrix, one row per chunk. -/
def claimedMatrix (chunks : List Chunk) (cond : Cond) : List (List Bool) :=
  chunks.map (fun c => cond.map (fun sv => decide (sv.2 ∈ c.valueList)))

/-- Modelled from the claim's words: a per-chunk `sji` from each chunk's
row fan, and each chunk's contribution
`Σ over slots of wj * sji[chunk] * matrix[chunk][slot]` with `wj = W/M`. -/
def claimedSpreadingVec (chunks : List Chunk) (cond : Cond) (W mas : ℝ) : List ℝ :=
  let mm := claimedMatrix chunks cond
  let wj : ℝ := W / (cond.length : ℝ)
  let sji := actrSji mas mm
  (List.range chunks.length).map (fun i =>
    ((List.range cond.length).map (fun j =>
      wj * sji.getD i 0 * (if (mm.getD i []).getD j false then (1 : ℝ) else 0))).sum)

/-- A `Memory` with the constructor's default parameters (W = 1,
mas = 1.6 = 8/5, threshold -10, no explicit temperature, no mismatch, all
default strategy functions, no diagnostics), over a given store, time,
noise, decay and learning mode. -/
def mkMem (chunks : List (Sig × Chunk)) (time noise decay : ℚ) (optimized : Bool) :
    Memory :=
  { chunks := chunks
    time := time
    noise := noise
    decay := decay
    ln1md := .val (Real.log ((1 : ℝ) - (decay : ℝ)))
    exptCache := freshCache
    lnCache := freshCache
    temperatureParam := none
    temperature := Real.sqrt 2 * (noise : ℝ)
    thresholdV := -10
    mismatch := none
    optimized := optimized
    Wp := 1
    mas := 8 / 5
    history := none
    useActrMatching := true
    matchingFn := none
    useActrSji := true
    sjiFn := none
    useActrSim := false
    simFns := fun _ => none }

/-- A chunk with the given content, creation time and references, and the
initial unset memo / accumulator and zero importance. -/
def mkChunk (content : List (Slot × Val)) (creation : ℚ) (refs : Refs) : Chunk :=
  { content := content
    creation := creation
    refs := refs
    memo := none
    spreading := none
    importance := 0 }

end

/-- `math.pow` at base 1 never raises and returns 1. -/
theorem pyPow_one (y : ℚ) : pyPow 1 y = .ok 1 := by
  norm_num [pyPow, powVal, Real.one_rpow]

/-- `math.log 1 = 0` through the real-argument wrapper. -/
theorem pyLogR_one : pyLogR 1 = .ok 0 := by
  norm_num [pyLogR, Real.log_one]

/-- The memo write of a successful recomputation does not change the
observable core of the chunk. -/
theorem recomputeBase_core (m : Memory) (c : Chunk) (x : ℝ × Chunk)
    (h : recomputeBase m c = .ok x) : x.2.core = c.core := by
  unfold recomputeBase at h
  cases hc : computeBase m c with
  | ok v => rw [hc] at h; cases h; simp [Chunk.core]
  | error e =>
    rw [hc] at h
    cases e <;> simp_all

/-- `_get_base_activation` does not change the observable core. -/
theorem getBaseActivation_core (m : Memory) (c : Chunk) (x : ℝ × Chunk)
    (h : getBaseActivation m c = .ok x) : x.2.core = c.core := by
  unfold getBaseActivation at h
  cases hm : c.memo with
  | none => rw [hm] at h; exact recomputeBase_core m c x h
  | some tv =>
    obtain ⟨t, v⟩ := tv
    rw [hm] at h
    simp only at h
    by_cases ht : t = m.time
    · rw [if_pos ht] at h; cases h; rfl
    · rw [if_neg ht] at h; exact recomputeBase_core m c x h

/-- With zero noise the noise term vanishes. -/
theorem makeNoise_zero (m : Memory) (p : ℚ) (h : m.noise = 0) :
    makeNoise m p = 0 := by simp [makeNoise, h]

/-- With zero noise `_activation`'s value does not depend on the draw. -/
theorem activationVal_noise0 (m : Memory) (c : Chunk) (p : ℚ) (h : m.noise = 0) :
    activationVal m c p = activationVal m c 0 := by
  simp [activationVal, makeNoise_zero _ _ h]

/-- A successful `_activation` call returns exactly the pure activation
value and only rewrites the chunk's memo. -/
theorem runActivation_ok (m : Memory) (c : Chunk) (p : ℚ) (fp : Bool)
    (a : ℝ) (c' : Chunk) (h : Option HistEntry)
    (hr : runActivation m c p fp = .ok (a, c', h)) :
    activationVal m c p = .ok a ∧ c'.core = c.core := by
  unfold runActivation at hr
  cases hb : getBaseActivation m c with
  | error e => rw [hb] at hr; cases hr
  | ok x =>
    rw [hb] at hr
    simp only at hr
    cases hr
    refine ⟨?_, getBaseActivation_core m c x hb⟩
    simp [activationVal, baseActivationVal, hb, Except.map]

/-- `_activation` fails exactly when the pure activation value does. -/
theorem runActivation_error (m : Memory) (c : Chunk) (p : ℚ) (fp : Bool)
    (e : PyErr) :
    runActivation m c p fp = .error e ↔ activationVal m c p = .error e := by
  unfold runActivation activationVal baseActivationVal
  cases hb : getBaseActivation m c with
  | error e0 => simp [hb, Except.map]
  | ok x => simp [hb, Except.map]

/-- A defined pure activation value is realized by `_activation`. -/
theorem runActivation_of_val (m : Memory) (c : Chunk) (p : ℚ) (fp : Bool)
    (a : ℝ) (hv : activationVal m c p = .ok a) :
    ∃ c' h, runActivation m c p fp = .ok (a, c', h) ∧ c'.core = c.core := by
  cases hr : runActivation m c p fp with
  | error e => rw [runActivation_error] at hr; rw [hr] at hv; cases hv
  | ok x =>
    obtain ⟨a', c', h⟩ := x
    obtain ⟨h1, h2⟩ := runActivation_ok m c p fp a' c' h hr
    rw [hv] at h1
    injection h1 with h1e
    refine ⟨c', h, ?_, h2⟩
    rw [h1e]


/-- If every matching chunk in the remaining list has an activation
strictly below the running best, the best chunk is never replaced
(the replacement test is `a >= best_activation`). -/
theorem exactMatchGo_keep (m : Memory) (cond : Cond) (draws : ℕ → ℚ)
    (hnoise : m.noise = 0) (best : Option Chunk) (bestA : ℝ) :
    ∀ (l : List (Sig × Chunk)) (i : ℕ),
    (∀ e ∈ l, e.2.exactMatches cond = true →
      ∃ b, activationVal m e.2 0 = .ok b ∧ b < bestA) →
    ∃ l' hs, exactMatchGo m cond draws l i best bestA = .ok (best, l', hs) := by
  intro l
  induction l with
  | nil => intro i _; exact ⟨[], [], rfl⟩
  | cons e rest ih =>
    intro i h
    by_cases hm : e.2.exactMatches cond = true
    · obtain ⟨b, hb, hlt⟩ := h e (by simp) hm
      have hb' : activationVal m e.2 (draws i) = .ok b :=
        (activationVal_noise0 m e.2 (draws i) hnoise).trans hb
      obtain ⟨c', hh, hrun, _⟩ := runActivation_of_val m e.2 (draws i) false b hb'
      obtain ⟨l', hs, hrest⟩ := ih (i + 1) (fun e' he' hm' => h e' (by simp [he']) hm')
      refine ⟨(e.1, c') :: l', hh.toList ++ hs, ?_⟩
      simp only [exactMatchGo, hm, if_true, hrun]
      rw [if_neg (not_le.mpr hlt)]
      simp [hrest]
    · obtain ⟨l', hs, hrest⟩ := ih (i + 1) (fun e' he' hm' => h e' (by simp [he']) hm')
      refine ⟨e :: l', hs, ?_⟩
      rw [Bool.not_eq_true] at hm
      simp only [exactMatchGo, hm]
      simp [hrest]

/-- The head lemma of the last-argmax property: once the loop reaches a
matching chunk whose activation `a` is at least the running best, with all
later matching chunks strictly below `a`, that chunk wins. -/
theorem exactMatchGo_argmax (m : Memory) (cond : Cond) (draws : ℕ → ℚ)
    (hnoise : m.noise = 0) (s : Sig) (c : Chunk) (a : ℝ)
    (hmc : c.exactMatches cond = true)
    (hac : activationVal m c 0 = .ok a)
    (l₂ : List (Sig × Chunk))
    (hpost : ∀ e ∈ l₂, e.2.exactMatches cond = true →
      ∃ b, activationVal m e.2 0 = .ok b ∧ b < a) :
    ∀ (l₁ : List (Sig × Chunk)) (i : ℕ) (best : Option Chunk) (bestA : ℝ),
    bestA ≤ a →
    (∀ e ∈ l₁, e.2.exactMatches cond = true →
      ∃ b, activationVal m e.2 0 = .ok b ∧ b ≤ a) →
    ∃ c' l' hs,
      exactMatchGo m cond draws (l₁ ++ (s, c) :: l₂) i best bestA = .ok (some c', l', hs) ∧
      c'.core = c.core := by
  intro l₁
  induction l₁ with
  | nil =>
    intro i best bestA hba _
    have hac' : activationVal m c (draws i) = .ok a :=
      (activationVal_noise0 m c (draws i) hnoise).trans hac
    obtain ⟨c', hh, hrun, hcore⟩ := runActivation_of_val m c (draws i) false a hac'
    obtain ⟨l', hs, hrest⟩ := exactMatchGo_keep m cond draws hnoise (some c') a l₂ (i + 1) hpost
    refine ⟨c', (s, c') :: l', hh.toList ++ hs, ?_, hcore⟩
    simp only [List.nil_append, exactMatchGo, hmc, if_true, hrun]
    rw [if_pos hba]
    simp [hrest]
  | cons e rest ih =>
    intro i best bestA hba hpre
    by_cases hm : e.2.exactMatches cond = true
    · obtain ⟨b, hb, hle⟩ := hpre e (by simp) hm
      have hb' : activationVal m e.2 (draws i) = .ok b :=
        (activationVal_noise0 m e.2 (draws i) hnoise).trans hb
      obtain ⟨c'', hh, hrun, _⟩ := runActivation_of_val m e.2 (draws i) false b hb'
      by_cases hcmp : bestA ≤ b
      · obtain ⟨c', l', hs, hrest, hcore⟩ :=
          ih (i + 1) (some c'') b hle (fun e' he' hm' => hpre e' (by simp [he']) hm')
        refine ⟨c', (e.1, c'') :: l', hh.toList ++ hs, ?_, hcore⟩
        simp only [List.cons_append, exactMatchGo, hm, if_true, hrun]
        rw [if_pos hcmp]
        simp [hrest]
      · obtain ⟨c', l', hs, hrest, hcore⟩ :=
          ih (i + 1) best bestA hba (fun e' he' hm' => hpre e' (by simp [he']) hm')
        refine ⟨c', (e.1, c'') :: l', hh.toList ++ hs, ?_, hcore⟩
        simp only [List.cons_append, exactMatchGo, hm, if_true, hrun]
        rw [if_neg hcmp]
        simp [hrest]
    · obtain ⟨c', l', hs, hrest, hcore⟩ :=
        ih (i + 1) best bestA hba (fun e' he' hm' => hpre e' (by simp [he']) hm')
      refine ⟨c', e :: l', hs, ?_, hcore⟩
      rw [Bool.not_eq_true] at hm
      simp only [List.cons_append, exactMatchGo, hm]
      simp [hrest]

/-- Unfolding `_exact_match` over a successful loop run. -/
theorem exactMatch_of_go (m : Memory) (cond : Cond) (draws : ℕ → ℚ)
    (b : Option Chunk) (l' : List (Sig × Chunk)) (hs : List HistEntry)
    (h : exactMatchGo m cond draws m.chunks 0 none m.thresholdV = .ok (b, l', hs)) :
    m.exactMatch cond draws =
      .ok (b, { m with chunks := l', history := m.history.map (· ++ hs) }) := by
  unfold Memory.exactMatch
  rw [h]

/-- With zero noise what the iterator would yield does not depend on the
draw. -/
theorem iterCandidate_noise0 (m : Memory) (cond : Cond) (c : Chunk) (p : ℚ)
    (h : m.noise = 0) : iterCandidate m cond c p = iterCandidate m cond c 0 := by
  unfold iterCandidate
  rw [activationVal_noise0 m c p h]

/-- A skipped chunk produces no state change and no yield. -/
theorem iterStep_none (m : Memory) (cond : Cond) (c : Chunk) (p : ℚ)
    (h : iterCandidate m cond c p = none) : iterStep m cond c p = .ok none := by
  by_cases hq : c.qualifies cond = true
  · cases hmv : m.mismatch with
    | some mp => simp [iterCandidate, hq, hmv] at h
    | none =>
      by_cases he : c.exactMatches cond = true
      · simp [iterCandidate, hq, hmv, he] at h
      · rw [Bool.not_eq_true] at he
        simp [iterStep, hq, hmv, he]
  · rw [Bool.not_eq_true] at hq
    simp [iterStep, hq]

/-- A yielded value is realized by the stateful iterator step, which only
rewrites the chunk's memo. -/
theorem iterStep_of_val (m : Memory) (cond : Cond) (c : Chunk) (p : ℚ) (v : ℝ)
    (h : iterCandidate m cond c p = some (.ok v)) :
    ∃ c' hh, iterStep m cond c p = .ok (some (v, c', hh)) ∧ c'.core = c.core := by
  by_cases hq : c.qualifies cond = true
  · cases hmv : m.mismatch with
    | some mp =>
      have h' : Except.map (fun a => a + mismatchTerm m mp cond c) (activationVal m c p)
          = .ok v := by
        simpa [iterCandidate, hq, hmv] using h
      cases hav : activationVal m c p with
      | error e => rw [hav] at h'; simp [Except.map] at h'
      | ok a =>
        rw [hav] at h'
        simp only [Except.map, Except.ok.injEq] at h'
        obtain ⟨c', hh, hrun, hcore⟩ := runActivation_of_val m c p true a hav
        refine ⟨c', hh.map (fun e0 =>
          { e0 with mismatchV := some (mismatchTerm m mp cond c),
                    activationV := some (a + mismatchTerm m mp cond c) }), ?_, hcore⟩
        simp [iterStep, hq, hmv, hrun, h']
    | none =>
      by_cases he : c.exactMatches cond = true
      · have h' : activationVal m c p = .ok v := by
          simpa [iterCandidate, hq, hmv, he] using h
        obtain ⟨c', hh, hrun, hcore⟩ := runActivation_of_val m c p true v h'
        refine ⟨c', hh.map (fun e0 => { e0 with activationV := some v }), ?_, hcore⟩
        simp [iterStep, hq, hmv, he, hrun]
      · rw [Bool.not_eq_true] at he
        simp [iterCandidate, hq, hmv, he] at h
  · rw [Bool.not_eq_true] at hq
    simp [iterCandidate, hq] at h

/-- If every chunk the iterator yields from the remaining list has a total
strictly below the threshold, the best chunk is never replaced (the test in
`_partial_match` is against the threshold). -/
theorem pMatchGo_keep (m : Memory) (cond : Cond) (draws : ℕ → ℚ)
    (hnoise : m.noise = 0) (best : Option Chunk) :
    ∀ (l : List (Sig × Chunk)) (i : ℕ),
    (∀ e ∈ l, ∀ r, iterCandidate m cond e.2 0 = some r →
      ∃ w, r = .ok w ∧ w < m.thresholdV) →
    ∃ l' hs, pMatchGo m cond draws l i best = .ok (best, l', hs) := by
  intro l
  induction l with
  | nil => intro i _; exact ⟨[], [], rfl⟩
  | cons e rest ih =>
    intro i h
    obtain ⟨l', hs, hrest⟩ := ih (i + 1) (fun e' he' => h e' (by simp [he']))
    cases hc : iterCandidate m cond e.2 0 with
    | none =>
      have hstep : iterStep m cond e.2 (draws i) = .ok none :=
        iterStep_none m cond e.2 (draws i)
          ((iterCandidate_noise0 m cond e.2 (draws i) hnoise).trans hc)
      refine ⟨e :: l', hs, ?_⟩
      simp only [pMatchGo, hstep]
      simp [hrest]
    | some r =>
      obtain ⟨w, hw, hwlt⟩ := h e (by simp) r hc
      rw [hw] at hc
      obtain ⟨c', hh, hstep, _⟩ := iterStep_of_val m cond e.2 (draws i) w
        ((iterCandidate_noise0 m cond e.2 (draws i) hnoise).trans hc)
      refine ⟨(e.1, c') :: l', hh.toList ++ hs, ?_⟩
      simp only [pMatchGo, hstep]
      rw [if_neg (not_le.mpr hwlt)]
      simp [hrest]

/-- Once the loop reaches a yielded chunk whose total is at least the
threshold, with every later yielded total strictly below the threshold,
that chunk is the one returned (the loop keeps the last chunk that clears
the threshold).  The chunks before it only need well-defined candidates. -/
theorem pMatchGo_last (m : Memory) (cond : Cond) (draws : ℕ → ℚ)
    (hnoise : m.noise = 0) (s : Sig) (c : Chunk) (v : ℝ)
    (hcand : iterCandidate m cond c 0 = some (.ok v))
    (hv : m.thresholdV ≤ v)
    (l₂ : List (Sig × Chunk))
    (hpost : ∀ e ∈ l₂, ∀ r, iterCandidate m cond e.2 0 = some r →
      ∃ w, r = .ok w ∧ w < m.thresholdV) :
    ∀ (l₁ : List (Sig × Chunk)) (i : ℕ) (best : Option Chunk),
    (∀ e ∈ l₁, ∀ r, iterCandidate m cond e.2 0 = some r → ∃ w, r = .ok w) →
    ∃ c' l' hs,
      pMatchGo m cond draws (l₁ ++ (s, c) :: l₂) i best = .ok (some c', l', hs) ∧
      c'.core = c.core := by
  intro l₁
  induction l₁ with
  | nil =>
    intro i best _
    obtain ⟨c', hh, hstep, hcore⟩ := iterStep_of_val m cond c (draws i) v
      ((iterCandidate_noise0 m cond c (draws i) hnoise).trans hcand)
    obtain ⟨l', hs, hrest⟩ := pMatchGo_keep m cond draws hnoise (some c') l₂ (i + 1) hpost
    refine ⟨c', (s, c') :: l', hh.toList ++ hs, ?_, hcore⟩
    simp only [List.nil_append, pMatchGo, hstep]
    rw [if_pos hv]
    simp [hrest]
  | cons e rest ih =>
    intro i best hpre
    cases hc : iterCandidate m cond e.2 0 with
    | none =>
      obtain ⟨c', l', hs, hrest, hcore⟩ :=
        ih (i + 1) best (fun e' he' => hpre e' (by simp [he']))
      have hstep : iterStep m cond e.2 (draws i) = .ok none :=
        iterStep_none m cond e.2 (draws i)
          ((iterCandidate_noise0 m cond e.2 (draws i) hnoise).trans hc)
      refine ⟨c', e :: l', hs, ?_, hcore⟩
      simp only [List.cons_append, pMatchGo, hstep]
      simp [hrest]
    | some r =>
      obtain ⟨w, hw⟩ := hpre e (by simp) r hc
      rw [hw] at hc
      obtain ⟨c'', hh, hstep, _⟩ := iterStep_of_val m cond e.2 (draws i) w
        ((iterCandidate_noise0 m cond e.2 (draws i) hnoise).trans hc)
      by_cases hcmp : m.thresholdV ≤ w
      · obtain ⟨c', l', hs, hrest, hcore⟩ :=
          ih (i + 1) (some c'') (fun e' he' => hpre e' (by simp [he']))
        refine ⟨c', (e.1, c'') :: l', hh.toList ++ hs, ?_, hcore⟩
        simp only [List.cons_append, pMatchGo, hstep]
        rw [if_pos hcmp]
        simp [hrest]
      · obtain ⟨c', l', hs, hrest, hcore⟩ :=
          ih (i + 1) best (fun e' he' => hpre e' (by simp [he']))
        refine ⟨c', (e.1, c'') :: l', hh.toList ++ hs, ?_, hcore⟩
        simp only [List.cons_append, pMatchGo, hstep]
        rw [if_neg hcmp]
        simp [hrest]

/-- Unfolding `_partial_match` over a successful loop run. -/
theorem pMatch_of_go (m : Memory) (cond : Cond) (draws : ℕ → ℚ)
    (b : Option Chunk) (l' : List (Sig × Chunk)) (hs : List HistEntry)
    (h : pMatchGo m cond draws m.chunks 0 none = .ok (b, l', hs)) :
    m.pMatch cond draws =
      .ok (b, { m with chunks := l', history := m.history.map (· ++ hs) }) := by
  unfold Memory.pMatch
  rw [h]

/-- A yielded iterator step only rewrites the chunk's memo. -/
theorem iterStep_core (m : Memory) (cond : Cond) (c : Chunk) (p : ℚ)
    (v : ℝ) (c' : Chunk) (hh : Option HistEntry)
    (h : iterStep m cond c p = .ok (some (v, c', hh))) : c'.core = c.core := by
  by_cases hq : c.qualifies cond = true
  · cases hmv : m.mismatch with
    | some mp =>
      cases hrun : runActivation m c p true with
      | error e => simp [iterStep, hq, hmv, hrun] at h
      | ok y =>
        obtain ⟨a, c0, hh0⟩ := y
        have hc := (runActivation_ok m c p true a c0 hh0 hrun).2
        simp only [iterStep, hq, if_true, hmv, hrun] at h
        simp only [Except.ok.injEq, Option.some.injEq, Prod.mk.injEq] at h
        rw [← h.2.1]
        exact hc
    | none =>
      by_cases he : c.exactMatches cond = true
      · cases hrun : runActivation m c p true with
        | error e => simp [iterStep, hq, hmv, he, hrun] at h
        | ok y =>
          obtain ⟨a, c0, hh0⟩ := y
          have hc := (runActivation_ok m c p true a c0 hh0 hrun).2
          simp only [iterStep, hq, if_true, hmv, he, hrun] at h
          simp only [Except.ok.injEq, Option.some.injEq, Prod.mk.injEq] at h
          rw [← h.2.1]
          exact hc
      · rw [Bool.not_eq_true] at he
        simp [iterStep, hq, hmv, he] at h
  · rw [Bool.not_eq_true] at hq
    simp [iterStep, hq] at h

/-- The signature-and-core projection of a store. -/
def coreList (l : List (Sig × Chunk)) : List (Sig × (List (Slot × Val) × ℚ × Refs × Option ℝ × ℝ)) :=
  l.map (fun e => (e.1, e.2.core))

/-- The `_exact_match` loop only rewrites memos: signatures, order and
observable cores of the store are preserved. -/
theorem exactMatchGo_frame (m : Memory) (cond : Cond) (draws : ℕ → ℚ) :
    ∀ (l : List (Sig × Chunk)) (i : ℕ) (best : Option Chunk) (bestA : ℝ)
      (b : Option Chunk) (l' : List (Sig × Chunk)) (hs : List HistEntry),
    exactMatchGo m cond draws l i best bestA = .ok (b, l', hs) →
    coreList l' = coreList l := by
  intro l
  induction l with
  | nil =>
    intro i best bestA b l' hs h
    simp only [exactMatchGo] at h
    simp only [Except.ok.injEq, Prod.mk.injEq] at h
    rw [← h.2.1]
  | cons e rest ih =>
    intro i best bestA b l' hs h
    by_cases hm : e.2.exactMatches cond = true
    · simp only [exactMatchGo, hm, if_true] at h
      cases hrun : runActivation m e.2 (draws i) false with
      | error err => rw [hrun] at h; cases h
      | ok y =>
        obtain ⟨a, c', hh⟩ := y
        have hc := (runActivation_ok m e.2 (draws i) false a c' hh hrun).2
        rw [hrun] at h
        simp only at h
        by_cases hcmp : bestA ≤ a
        · rw [if_pos hcmp] at h
          cases hrest : exactMatchGo m cond draws rest (i + 1) (some c') a with
          | error err => rw [hrest] at h; cases h
          | ok y2 =>
            obtain ⟨b0, l0, hs0⟩ := y2
            rw [hrest] at h
            simp only [Except.ok.injEq, Prod.mk.injEq] at h
            rw [← h.2.1]
            simp only [coreList, List.map_cons]
            rw [hc]
            have := ih (i + 1) (some c') a b0 l0 hs0 hrest
            simp only [coreList] at this
            rw [this]
        · rw [if_neg hcmp] at h
          cases hrest : exactMatchGo m cond draws rest (i + 1) best bestA with
          | error err => rw [hrest] at h; cases h
          | ok y2 =>
            obtain ⟨b0, l0, hs0⟩ := y2
            rw [hrest] at h
            simp only [Except.ok.injEq, Prod.mk.injEq] at h
            rw [← h.2.1]
            simp only [coreList, List.map_cons]
            rw [hc]
            have := ih (i + 1) best bestA b0 l0 hs0 hrest
            simp only [coreList] at this
            rw [this]
    · rw [Bool.not_eq_true] at hm
      simp only [exactMatchGo, hm, Bool.false_eq_true, if_false] at h
      cases hrest : exactMatchGo m cond draws rest (i + 1) best bestA with
      | error err => rw [hrest] at h; cases h
      | ok y2 =>
        obtain ⟨b0, l0, hs0⟩ := y2
        rw [hrest] at h
        simp only [Except.ok.injEq, Prod.mk.injEq] at h
        rw [← h.2.1]
        simp only [coreList, List.map_cons]
        have := ih (i + 1) best bestA b0 l0 hs0 hrest
        simp only [coreList] at this
        rw [this]

/-- The `_partial_match` loop only rewrites memos. -/
theorem pMatchGo_frame (m : Memory) (cond : Cond) (draws : ℕ → ℚ) :
    ∀ (l : List (Sig × Chunk)) (i : ℕ) (best : Option Chunk)
      (b : Option Chunk) (l' : List (Sig × Chunk)) (hs : List HistEntry),
    pMatchGo m cond draws l i best = .ok (b, l', hs) →
    coreList l' = coreList l := by
  intro l
  induction l with
  | nil =>
    intro i best b l' hs h
    simp only [pMatchGo] at h
    simp only [Except.ok.injEq, Prod.mk.injEq] at h
    rw [← h.2.1]
  | cons e rest ih =>
    intro i best b l' hs h
    cases hstep : iterStep m cond e.2 (draws i) with
    | error err => simp only [pMatchGo, hstep] at h; cases h
    | ok yield =>
      cases yield with
      | none =>
        simp only [pMatchGo, hstep] at h
        cases hrest : pMatchGo m cond draws rest (i + 1) best with
        | error err => rw [hrest] at h; cases h
        | ok y2 =>
          obtain ⟨b0, l0, hs0⟩ := y2
          rw [hrest] at h
          simp only [Except.ok.injEq, Prod.mk.injEq] at h
          rw [← h.2.1]
          simp only [coreList, List.map_cons]
          have := ih (i + 1) best b0 l0 hs0 hrest
          simp only [coreList] at this
          rw [this]
      | some y =>
        obtain ⟨total, c', hh⟩ := y
        have hc := iterStep_core m cond e.2 (draws i) total c' hh hstep
        simp only [pMatchGo, hstep] at h
        cases hrest : pMatchGo m cond draws rest (i + 1)
            (if m.thresholdV ≤ total then some c' else best) with
        | error err => rw [hrest] at h; cases h
        | ok y2 =>
          obtain ⟨b0, l0, hs0⟩ := y2
          rw [hrest] at h
          simp only [Except.ok.injEq, Prod.mk.injEq] at h
          rw [← h.2.1]
          simp only [coreList, List.map_cons]
          rw [hc]
          have := ih (i + 1) _ b0 l0 hs0 hrest
          simp only [coreList] at this
          rw [this]

/-- The `blend` loop only rewrites memos. -/
theorem blendGo_frame (m : Memory) (out : Slot) (cond : Cond) (draws : ℕ → ℚ) :
    ∀ (l : List (Sig × Chunk)) (i : ℕ)
      (w wo : ℝ) (l' : List (Sig × Chunk)) (hs : List (HistEntry × Option ℝ)),
    blendGo m out cond draws l i = .ok (w, wo, l', hs) →
    coreList l' = coreList l := by
  intro l
  induction l with
  | nil =>
    intro i w wo l' hs h
    simp only [blendGo] at h
    simp only [Except.ok.injEq, Prod.mk.injEq] at h
    rw [← h.2.2.1]
  | cons e rest ih =>
    intro i w wo l' hs h
    cases hstep : iterStep m cond e.2 (draws i) with
    | error err => simp only [blendGo, hstep] at h; cases h
    | ok yield =>
      cases yield with
      | none =>
        simp only [blendGo, hstep] at h
        cases hrest : blendGo m out cond draws rest (i + 1) with
        | error err => rw [hrest] at h; cases h
        | ok y2 =>
          obtain ⟨w0, wo0, l0, hs0⟩ := y2
          rw [hrest] at h
          simp only [Except.ok.injEq, Prod.mk.injEq] at h
          rw [← h.2.2.1]
          simp only [coreList, List.map_cons]
          have := ih (i + 1) w0 wo0 l0 hs0 hrest
          simp only [coreList] at this
          rw [this]
      | some y =>
        obtain ⟨total, c', hh⟩ := y
        have hc := iterStep_core m cond e.2 (draws i) total c' hh hstep
        simp only [blendGo, hstep] at h
        cases hget : c'.get? out with
        | none =>
          rw [hget] at h
          simp only at h
          cases hrest : blendGo m out cond draws rest (i + 1) with
          | error err => rw [hrest] at h; cases h
          | ok y2 =>
            obtain ⟨w0, wo0, l0, hs0⟩ := y2
            rw [hrest] at h
            simp only [Except.ok.injEq, Prod.mk.injEq] at h
            rw [← h.2.2.1]
            simp only [coreList, List.map_cons]
            rw [hc]
            have := ih (i + 1) w0 wo0 l0 hs0 hrest
            simp only [coreList] at this
            rw [this]
        | some v =>
          rw [hget] at h
          simp only at h
          cases hrest : blendGo m out cond draws rest (i + 1) with
          | error err => rw [hrest] at h; cases h
          | ok y2 =>
            obtain ⟨w0, wo0, l0, hs0⟩ := y2
            rw [hrest] at h
            simp only [Except.ok.injEq, Prod.mk.injEq] at h
            rw [← h.2.2.1]
            simp only [coreList, List.map_cons]
            rw [hc]
            have := ih (i + 1) w0 wo0 l0 hs0 hrest
            simp only [coreList] at this
            rw [this]

/-- Everything claim C10 asserts unchanged: store keys, order and every
chunk's observable core, the time, and all tunable parameters and derived
fields. -/
def frameOK (m m' : Memory) : Prop :=
  m'.storeCore = m.storeCore ∧ m'.time = m.time ∧ m'.noise = m.noise ∧
  m'.decay = m.decay ∧ m'.ln1md = m.ln1md ∧ m'.exptCache = m.exptCache ∧
  m'.lnCache = m.lnCache ∧ m'.temperatureParam = m.temperatureParam ∧
  m'.temperature = m.temperature ∧ m'.thresholdV = m.thresholdV ∧
  m'.mismatch = m.mismatch ∧ m'.optimized = m.optimized ∧
  m'.Wp = m.Wp ∧ m'.mas = m.mas

/-- C10: for every memory state and cue, `retrieve` (exact or partial) and
`blend` leave the set of stored chunks, every chunk's attribute mapping,
reference history, spreading accumulator and importance, and the memory's
time and tunable parameters unchanged; the only state they may mutate is
each chunk's memoized base-activation pair and the optional diagnostic
history. -/
theorem c10_retrieve_blend_frame (m : Memory) (cond : Cond) (draws : ℕ → ℚ) :
    (∀ (up : Bool) (res : Option Chunk) (m' : Memory),
      m.retrieve up cond draws = .ok (res, m') → frameOK m m') ∧
    (∀ (out : Slot) (v : Option ℝ) (m' : Memory),
      m.blend out cond draws = .ok (v, m') → frameOK m m') := by
  constructor
  · intro up res m' h
    cases up with
    | false =>
      simp only [Memory.retrieve, Bool.false_eq_true, if_false] at h
      unfold Memory.exactMatch at h
      cases hgo : exactMatchGo m cond draws m.chunks 0 none m.thresholdV with
      | error e => rw [hgo] at h; cases h
      | ok y =>
        obtain ⟨b, l', hs⟩ := y
        rw [hgo] at h
        simp only [Except.ok.injEq, Prod.mk.injEq] at h
        obtain ⟨_, hm'⟩ := h
        have hframe := exactMatchGo_frame m cond draws m.chunks 0 none m.thresholdV b l' hs hgo
        rw [← hm']
        refine ⟨?_, rfl, rfl, rfl, rfl, rfl, rfl, rfl, rfl, rfl, rfl, rfl, rfl, rfl⟩
        simpa [Memory.storeCore, coreList] using hframe
    | true =>
      simp only [Memory.retrieve, if_true] at h
      unfold Memory.pMatch at h
      cases hgo : pMatchGo m cond draws m.chunks 0 none with
      | error e => rw [hgo] at h; cases h
      | ok y =>
        obtain ⟨b, l', hs⟩ := y
        rw [hgo] at h
        simp only [Except.ok.injEq, Prod.mk.injEq] at h
        obtain ⟨_, hm'⟩ := h
        have hframe := pMatchGo_frame m cond draws m.chunks 0 none b l' hs hgo
        rw [← hm']
        refine ⟨?_, rfl, rfl, rfl, rfl, rfl, rfl, rfl, rfl, rfl, rfl, rfl, rfl, rfl⟩
        simpa [Memory.storeCore, coreList] using hframe
  · intro out v m' h
    unfold Memory.blend at h
    cases hgo : blendGo m out cond draws m.chunks 0 with
    | error e => rw [hgo] at h; cases h
    | ok y =>
      obtain ⟨w, wo, l', hs⟩ := y
      rw [hgo] at h
      simp only [Except.ok.injEq, Prod.mk.injEq] at h
      obtain ⟨_, hm'⟩ := h
      have hframe := blendGo_frame m out cond draws m.chunks 0 w wo l' hs hgo
      rw [← hm']
      refine ⟨?_, rfl, rfl, rfl, rfl, rfl, rfl, rfl, rfl, rfl, rfl, rfl, rfl, rfl⟩
      simpa [Memory.storeCore, coreList] using hframe

/-- The empty default memory used for concrete frame checks. -/
noncomputable def mEmptyC10 : Memory := mkMem [] 0 0 (1/2) false

/-- Witness for C10 at a concrete memory and cue. -/
theorem c10_retrieve_blend_frame_witness :
    mEmptyC10.retrieve false [] (fun _ => 0) = .ok (none, mEmptyC10) ∧
    frameOK mEmptyC10 mEmptyC10 :=
  ⟨rfl, (c10_retrieve_blend_frame mEmptyC10 [] (fun _ => 0)).1 false none mEmptyC10 rfl⟩

/-- Pure activation of a fresh chunk whose single reference lies one time
unit in the past, with zero noise and an unset accumulator: the base
activation is `ln(1^(-d)) = 0`, so the activation equals the importance. -/
theorem activationVal_single_ref (m : Memory) (c : Chunk)
    (hopt : m.optimized = false) (hmemo : c.memo = none)
    (hrefs : c.refs = .full [m.time - 1])
    (hn : m.noise = 0) (hsp : c.spreading = none) :
    activationVal m c 0 = .ok c.importance := by
  have h1 : m.time - (m.time - 1) = 1 := by ring
  have hbase : computeBase m c = .ok 0 := by
    simp only [computeBase, hopt, Bool.false_eq_true, if_false, hrefs]
    simp [sumPows, h1, pyPow_one, pyLogR, Real.log_one]
  have hget : getBaseActivation m c = .ok (0, { c with memo := some (m.time, 0) }) := by
    simp [getBaseActivation, hmemo, recomputeBase, hbase]
  simp [activationVal, baseActivationVal, hget, hsp, makeNoise_zero m 0 hn, Except.map]

/-- The first chunk of the C2 tie scenario. -/
noncomputable def cC2a : Chunk := mkChunk [(0, 1), (1, 1)] 0 (.full [0])

/-- The second chunk of the C2 tie scenario. -/
noncomputable def cC2b : Chunk := mkChunk [(0, 1), (1, 2)] 0 (.full [0])

/-- Two chunks matching the cue `{0: 1}` with equal activations, stored in
this order, at time 1 with zero noise. -/
noncomputable def mC2 : Memory :=
  mkMem [([(0, 1), (1, 1)], cC2a), ([(0, 1), (1, 2)], cC2b)] 1 0 (1/2) false

theorem actC2a : activationVal mC2 cC2a 0 = .ok 0 := by
  have h := activationVal_single_ref mC2 cC2a rfl rfl
    (by norm_num [cC2a, mkChunk, mC2, mkMem]) rfl rfl
  simpa [cC2a, mkChunk] using h

theorem actC2b : activationVal mC2 cC2b 0 = .ok 0 := by
  have h := activationVal_single_ref mC2 cC2b rfl rfl
    (by norm_num [cC2b, mkChunk, mC2, mkMem]) rfl rfl
  simpa [cC2b, mkChunk] using h

/-- C2 (amended): in exact-match retrieval, among chunks matching the cue
whose activation is at least the threshold, the chunk with the highest
activation wins, but ties are broken in favor of the LAST chunk
encountered in iteration order: a later chunk whose activation equals the
current best replaces it (the comparison in the source is `>=`). -/
theorem c2_exact_tie_last_wins (m : Memory) (cond : Cond) (draws : ℕ → ℚ)
    (l₁ : List (Sig × Chunk)) (s : Sig) (c : Chunk) (l₂ : List (Sig × Chunk)) (a : ℝ)
    (hnoise : m.noise = 0)
    (hsplit : m.chunks = l₁ ++ (s, c) :: l₂)
    (hmc : c.exactMatches cond = true)
    (hac : activationVal m c 0 = .ok a)
    (hthr : m.thresholdV ≤ a)
    (hpre : ∀ e ∈ l₁, e.2.exactMatches cond = true →
      ∃ b, activationVal m e.2 0 = .ok b ∧ b ≤ a)
    (hpost : ∀ e ∈ l₂, e.2.exactMatches cond = true →
      ∃ b, activationVal m e.2 0 = .ok b ∧ b < a) :
    ∃ c' m', m.retrieve false cond draws = .ok (some c', m') ∧ c'.core = c.core := by
  obtain ⟨c', l', hs, hgo, hcore⟩ :=
    exactMatchGo_argmax m cond draws hnoise s c a hmc hac l₂ hpost l₁ 0 none
      m.thresholdV hthr hpre
  rw [← hsplit] at hgo
  refine ⟨c', { m with chunks := l', history := m.history.map (· ++ hs) }, ?_, hcore⟩
  simp only [Memory.retrieve, Bool.false_eq_true, if_false]
  exact exactMatch_of_go m cond draws (some c') l' hs hgo

/-- Witness for the amended C2 at the concrete tie scenario. -/
theorem c2_exact_tie_last_wins_witness :
    ∃ c' m', mC2.retrieve false [(0, 1)] (fun _ => 0) = .ok (some c', m') ∧
      c'.core = cC2b.core := by
  refine c2_exact_tie_last_wins mC2 [(0, 1)] (fun _ => 0)
    [([(0, 1), (1, 1)], cC2a)] [(0, 1), (1, 2)] cC2b [] 0 rfl rfl
    (by decide) actC2b (by norm_num [mC2, mkMem]) ?_ ?_
  · intro e he hm
    simp only [List.mem_singleton] at he
    subst he
    exact ⟨0, actC2a, le_refl 0⟩
  · intro e he
    simp at he

/-- Counterexample to C2 as stated: with two matching chunks of equal
activation, the SECOND one is returned, not the first encountered. -/
theorem c2_counterexample :
    ((mC2.retrieve false [(0, 1)] (fun _ => 0)).map (fun r => r.1.map Chunk.content))
      = .ok (some [(0, 1), (1, 2)]) ∧
    (some [((0 : Slot), (1 : Val)), (1, 2)] : Option (List (Slot × Val)))
      ≠ some [(0, 1), (1, 1)] := by
  constructor
  · obtain ⟨c', m', heq, hcore⟩ := c2_exact_tie_last_wins_witness
    rw [heq]
    have hcontent : c'.content = cC2b.content := congrArg Prod.fst hcore
    simp [Except.map, hcontent, cC2b, mkChunk]
  · decide

/-- C7: with zero noise, (1) when no exact-matching chunk clears the
threshold, exact retrieval returns `None` rather than raising; (2) an
exact-matching chunk whose activation is exactly the threshold, when every
other matching chunk is strictly below the threshold, is returned; (3) and
(4) the same two statements for partial retrieval over the iterator's
yielded retrieval totals. -/
theorem c7_threshold_boundary (m : Memory) (cond : Cond) (draws : ℕ → ℚ)
    (hnoise : m.noise = 0) :
    ((∀ e ∈ m.chunks, e.2.exactMatches cond = true →
        ∃ b, activationVal m e.2 0 = .ok b ∧ b < m.thresholdV) →
      ∃ m', m.retrieve false cond draws = .ok (none, m')) ∧
    (∀ (l₁ : List (Sig × Chunk)) (s : Sig) (c : Chunk) (l₂ : List (Sig × Chunk)),
      m.chunks = l₁ ++ (s, c) :: l₂ →
      c.exactMatches cond = true →
      activationVal m c 0 = .ok m.thresholdV →
      (∀ e ∈ l₁ ++ l₂, e.2.exactMatches cond = true →
        ∃ b, activationVal m e.2 0 = .ok b ∧ b < m.thresholdV) →
      ∃ c' m', m.retrieve false cond draws = .ok (some c', m') ∧ c'.core = c.core) ∧
    ((∀ e ∈ m.chunks, ∀ r, iterCandidate m cond e.2 0 = some r →
        ∃ w, r = .ok w ∧ w < m.thresholdV) →
      ∃ m', m.retrieve true cond draws = .ok (none, m')) ∧
    (∀ (l₁ : List (Sig × Chunk)) (s : Sig) (c : Chunk) (l₂ : List (Sig × Chunk)),
      m.chunks = l₁ ++ (s, c) :: l₂ →
      iterCandidate m cond c 0 = some (.ok m.thresholdV) →
      (∀ e ∈ l₁, ∀ r, iterCandidate m cond e.2 0 = some r → ∃ w, r = .ok w) →
      (∀ e ∈ l₂, ∀ r, iterCandidate m cond e.2 0 = some r →
        ∃ w, r = .ok w ∧ w < m.thresholdV) →
      ∃ c' m', m.retrieve true cond draws = .ok (some c', m') ∧ c'.core = c.core) := by
  refine ⟨?_, ?_, ?_, ?_⟩
  · intro h
    obtain ⟨l', hs, hgo⟩ :=
      exactMatchGo_keep m cond draws hnoise none m.thresholdV m.chunks 0 h
    refine ⟨{ m with chunks := l', history := m.history.map (· ++ hs) }, ?_⟩
    simp only [Memory.retrieve, Bool.false_eq_true, if_false]
    exact exactMatch_of_go m cond draws none l' hs hgo
  · intro l₁ s c l₂ hsplit hmc hac hothers
    obtain ⟨c', l', hs, hgo, hcore⟩ :=
      exactMatchGo_argmax m cond draws hnoise s c m.thresholdV hmc hac l₂
        (fun e he hm => hothers e (by simp [he]) hm) l₁ 0 none m.thresholdV (le_refl _)
        (fun e he hm => by
          obtain ⟨b, hb, hlt⟩ := hothers e (by simp [he]) hm
          exact ⟨b, hb, le_of_lt hlt⟩)
    rw [← hsplit] at hgo
    refine ⟨c', { m with chunks := l', history := m.history.map (· ++ hs) }, ?_, hcore⟩
    simp only [Memory.retrieve, Bool.false_eq_true, if_false]
    exact exactMatch_of_go m cond draws (some c') l' hs hgo
  · intro h
    obtain ⟨l', hs, hgo⟩ := pMatchGo_keep m cond draws hnoise none m.chunks 0 h
    refine ⟨{ m with chunks := l', history := m.history.map (· ++ hs) }, ?_⟩
    simp only [Memory.retrieve, if_true]
    exact pMatch_of_go m cond draws none l' hs hgo
  · intro l₁ s c l₂ hsplit hcand hpre hpost
    obtain ⟨c', l', hs, hgo, hcore⟩ :=
      pMatchGo_last m cond draws hnoise s c m.thresholdV hcand (le_refl _) l₂ hpost
        l₁ 0 none hpre
    rw [← hsplit] at hgo
    refine ⟨c', { m with chunks := l', history := m.history.map (· ++ hs) }, ?_, hcore⟩
    simp only [Memory.retrieve, if_true]
    exact pMatch_of_go m cond draws (some c') l' hs hgo

/-- The single chunk of the C7 boundary scenario. -/
noncomputable def cC7 : Chunk := mkChunk [(0, 1)] 0 (.full [0])

/-- One matching chunk of activation 0, threshold exactly 0. -/
noncomputable def mC7eq : Memory :=
  { mkMem [([(0, 1)], cC7)] 1 0 (1/2) false with thresholdV := 0 }

/-- One matching chunk of activation 0, threshold 1 (chunk strictly below). -/
noncomputable def mC7lt : Memory :=
  { mkMem [([(0, 1)], cC7)] 1 0 (1/2) false with thresholdV := 1 }

theorem actC7eq : activationVal mC7eq cC7 0 = .ok 0 := by
  have h := activationVal_single_ref mC7eq cC7 rfl rfl
    (by norm_num [cC7, mkChunk, mC7eq, mkMem]) rfl rfl
  simpa [cC7, mkChunk] using h

theorem actC7lt : activationVal mC7lt cC7 0 = .ok 0 := by
  have h := activationVal_single_ref mC7lt cC7 rfl rfl
    (by norm_num [cC7, mkChunk, mC7lt, mkMem]) rfl rfl
  simpa [cC7, mkChunk] using h

theorem candC7eq : iterCandidate mC7eq [(0, 1)] cC7 0 = some (.ok 0) := by
  have hq : cC7.qualifies [(0, 1)] = true := by decide
  have he : cC7.exactMatches [(0, 1)] = true := by decide
  have hmv : mC7eq.mismatch = none := rfl
  simp [iterCandidate, hq, he, hmv, actC7eq]

theorem candC7lt : iterCandidate mC7lt [(0, 1)] cC7 0 = some (.ok 0) := by
  have hq : cC7.qualifies [(0, 1)] = true := by decide
  have he : cC7.exactMatches [(0, 1)] = true := by decide
  have hmv : mC7lt.mismatch = none := rfl
  simp [iterCandidate, hq, he, hmv, actC7lt]

/-- Witness for C7: the threshold-equal chunk is retrieved in both modes;
with the threshold strictly above the only chunk, both modes return `None`
without an error. -/
theorem c7_threshold_boundary_witness :
    (∃ c' m', mC7eq.retrieve false [(0, 1)] (fun _ => 0) = .ok (some c', m') ∧
      c'.core = cC7.core) ∧
    (∃ c' m', mC7eq.retrieve true [(0, 1)] (fun _ => 0) = .ok (some c', m') ∧
      c'.core = cC7.core) ∧
    (∃ m', mC7lt.retrieve false [(0, 1)] (fun _ => 0) = .ok (none, m')) ∧
    (∃ m', mC7lt.retrieve true [(0, 1)] (fun _ => 0) = .ok (none, m')) := by
  have heq := c7_threshold_boundary mC7eq [(0, 1)] (fun _ => 0) rfl
  have hlt := c7_threshold_boundary mC7lt [(0, 1)] (fun _ => 0) rfl
  refine ⟨?_, ?_, ?_, ?_⟩
  · refine heq.2.1 [] [(0, 1)] cC7 [] rfl (by decide) ?_ ?_
    · have : mC7eq.thresholdV = 0 := rfl
      rw [this]; exact actC7eq
    · intro e he; simp at he
  · refine heq.2.2.2 [] [(0, 1)] cC7 [] rfl ?_ ?_ ?_
    · have : mC7eq.thresholdV = 0 := rfl
      rw [this]; exact candC7eq
    · intro e he; simp at he
    · intro e he; simp at he
  · refine hlt.1 ?_
    intro e he hm
    have he' : e ∈ [(([(0, 1)] : Sig), cC7)] := he
    simp only [List.mem_singleton] at he'
    subst he'
    refine ⟨0, actC7lt, ?_⟩
    norm_num [mC7lt, mkMem]
  · refine hlt.2.2.1 ?_
    intro e he r hr
    have he' : e ∈ [(([(0, 1)] : Sig), cC7)] := he
    simp only [List.mem_singleton] at he'
    subst he'
    rw [candC7lt] at hr
    injection hr with hr
    refine ⟨0, hr.symm, ?_⟩
    norm_num [mC7lt, mkMem]

/-- A stale memo always sends `_get_base_activation` down the recompute
path. -/
theorem getBase_stale (m : Memory) (c : Chunk)
    (h : ∀ t v, c.memo = some (t, v) → t ≠ m.time) :
    getBaseActivation m c = recomputeBase m c := by
  unfold getBaseActivation
  cases hm : c.memo with
  | none => rfl
  | some tv =>
    obtain ⟨t, v⟩ := tv
    simp only
    rw [if_neg (h t v hm)]

/-- C3 (amended): the temporal-consistency failure is raised as the
distinct `RuntimeError` (not the `ValueError`/`TypeError` of other numeric
failures) whenever the current time is at or before the chunk's creation
time and the base activation is actually recomputed - always in optimized
mode (with at least one reference and a valid `ln(1-decay)` field), and in
non-optimized mode whenever the decay is positive (references lying
between the creation time and the current time).  With decay 0 in
non-optimized mode no error is raised (see the counterexample). -/
theorem c3_temporal_error (m : Memory) (c : Chunk) :
    (PyErr.runtimeError ≠ PyErr.valueError ∧ PyErr.runtimeError ≠ PyErr.typeError) ∧
    (∀ n : ℤ, m.optimized = true → c.refs = .opt n → 1 ≤ n →
      m.ln1md ≠ .illegal →
      (∀ t v, c.memo = some (t, v) → t ≠ m.time) →
      m.time ≤ c.creation →
      getBaseActivation m c = .error .runtimeError) ∧
    (∀ l : List ℚ, m.optimized = false → c.refs = .full l → 0 < m.decay →
      (∀ x ∈ l, c.creation ≤ x ∧ x ≤ m.time) →
      (∀ t v, c.memo = some (t, v) → t ≠ m.time) →
      m.time ≤ c.creation →
      getBaseActivation m c = .error .runtimeError) := by
  refine ⟨⟨by decide, by decide⟩, ?_, ?_⟩
  · intro n hopt hrefs hn hln hmemo htime
    have hcb : computeBase m c = .error .valueError := by
      have hnpos : ¬ ((n : ℚ) ≤ 0) := by
        push_neg
        exact_mod_cast lt_of_lt_of_le zero_lt_one hn
      have htc : m.time - c.creation ≤ 0 := sub_nonpos.mpr htime
      cases hlv : m.ln1md with
      | illegal => exact absurd hlv hln
      | val r =>
        simp only [computeBase, hopt, if_true, hrefs]
        rw [pyLog, if_neg hnpos]
        simp only [hlv]
        rw [pyLog, if_pos htc]
    rw [getBase_stale m c hmemo]
    unfold recomputeBase
    rw [hcb]
    simp only [if_pos htime]
  · intro l hopt hrefs hdec hrange hmemo htime
    have hcb : computeBase m c = .error .valueError := by
      simp only [computeBase, hopt, Bool.false_eq_true, if_false, hrefs]
      cases l with
      | nil =>
        simp only [sumPows]
        rw [pyLogR, if_pos (le_refl (0 : ℝ))]
      | cons r rest =>
        obtain ⟨hr1, hr2⟩ := hrange r (by simp)
        have hrt : r = m.time := le_antisymm hr2 (le_trans htime hr1)
        have hz : m.time - r = 0 := by rw [hrt]; ring
        have hp : pyPow (m.time - r) (-m.decay) = .error .valueError := by
          rw [pyPow, if_pos ⟨hz, by linarith⟩]
        simp only [sumPows, hp]
    rw [getBase_stale m c hmemo]
    unfold recomputeBase
    rw [hcb]
    simp only [if_pos htime]

/-- An optimized-learning chunk (count 1) created at the current time. -/
noncomputable def cC3o : Chunk := mkChunk [(0, 1)] 0 (.opt 1)

/-- An optimized memory at the chunk's creation time. -/
noncomputable def mC3o : Memory := mkMem [([(0, 1)], cC3o)] 0 0 (1/2) true

/-- A non-optimized chunk referenced at its creation time. -/
noncomputable def cC3 : Chunk := mkChunk [(0, 1)] 0 (.full [0])

/-- A non-optimized memory (decay 1/2) at the chunk's creation time. -/
noncomputable def mC3n : Memory := mkMem [([(0, 1)], cC3)] 0 0 (1/2) false

/-- Witness for C3 in both learning modes at concrete states. -/
theorem c3_temporal_error_witness :
    getBaseActivation mC3o cC3o = .error .runtimeError ∧
    getBaseActivation mC3n cC3 = .error .runtimeError := by
  constructor
  · refine (c3_temporal_error mC3o cC3o).2.1 1 rfl rfl (le_refl 1) ?_ ?_ (le_refl 0)
    · intro h
      have : LnField.val (Real.log ((1 : ℝ) - ((1:ℚ)/2 : ℚ))) = .illegal := h
      cases this
    · intro t v h
      cases h
  · refine (c3_temporal_error mC3n cC3).2.2 [0] rfl rfl (by norm_num [mC3n, mkMem]) ?_ ?_ (le_refl 0)
    · intro x hx
      simp only [List.mem_singleton] at hx
      subst hx
      exact ⟨le_refl 0, le_refl 0⟩
    · intro t v h
      cases h

/-- A memory with decay 0 and a chunk referenced at creation, still at the
creation time. -/
noncomputable def mC3z : Memory := mkMem [([(0, 1)], cC3)] 0 0 0 false

/-- Counterexample to C3 as stated: with decay 0 in non-optimized mode,
computing the base activation at `time = creation` does NOT fail - it
returns `ln(1) = 0` - so the claimed universal temporal-consistency error
does not hold in both modes for every stored chunk. -/
theorem c3_counterexample :
    (getBaseActivation mC3z cC3).map Prod.fst = .ok 0 ∧
    (Except.ok (0 : ℝ) : Except PyErr ℝ) ≠ .error .runtimeError := by
  constructor
  · have hcb : computeBase mC3z cC3 = .ok 0 := by
      have hp : pyPow (0 : ℚ) (0 : ℚ) = .ok 1 := by
        norm_num [pyPow, powVal]
      simp only [computeBase, mC3z, mkMem, cC3, mkChunk, Bool.false_eq_true, if_false]
      simp only [sumPows, mC3z, mkMem]
      norm_num [hp, pyLogR, Real.log_one]
    have hmemo : cC3.memo = none := rfl
    simp [getBaseActivation, hmemo, recomputeBase, hcb, Except.map]
  · simp

/-- C8 (amended): assigning an invalid decay raises a `ValueError`
immediately; a negative value leaves the memory fully unchanged, but a
value at or above 1 with optimized learning first overwrites the derived
`ln(1-decay)` field with the illegal-value sentinel - only the stored
decay and the transcendental caches are left as they were. -/
theorem c8_decay_setter (m : Memory) (v : ℚ) :
    (v < 0 → m.setDecay v = (m, some .valueError)) ∧
    (1 ≤ v → m.optimized = true →
      m.setDecay v = ({ m with ln1md := .illegal }, some .valueError)) := by
  constructor
  · intro hv
    unfold Memory.setDecay
    rw [if_pos hv]
  · intro hv hopt
    unfold Memory.setDecay
    rw [if_neg (by linarith), if_neg (by linarith), if_pos hopt]

/-- An optimized memory with decay 1/2 whose derived field records
`ln(1/2)`. -/
noncomputable def mC8 : Memory := mkMem [] 0 0 (1/2) true

/-- Witness for C8 at a concrete assignment `decay := 1`. -/
theorem c8_decay_setter_witness :
    mC8.setDecay (-1) = (mC8, some .valueError) ∧
    mC8.setDecay 1 = ({ mC8 with ln1md := .illegal }, some .valueError) :=
  ⟨(c8_decay_setter mC8 (-1)).1 (by norm_num),
   (c8_decay_setter mC8 1).2 (le_refl 1) rfl⟩

/-- Counterexample to C8 as stated: the rejected assignment `decay := 1`
on an optimized memory does NOT leave the state unchanged - the derived
`ln(1-decay)` field is overwritten with the illegal-value sentinel, which
differs from the stored `ln(1/2)`. -/
theorem c8_counterexample :
    (mC8.setDecay 1).2 = some .valueError ∧
    (mC8.setDecay 1).1.ln1md = .illegal ∧
    mC8.ln1md = .val (Real.log ((1 : ℝ) - ((1:ℚ)/2 : ℚ))) ∧
    LnField.illegal ≠ .val (Real.log ((1 : ℝ) - ((1:ℚ)/2 : ℚ))) := by
  have h := (c8_decay_setter mC8 1).2 (le_refl 1) rfl
  refine ⟨by rw [h], by rw [h], rfl, ?_⟩
  intro hc
  cases hc

/-- With a nonempty cue the default matching matrix has one column per
stored chunk. -/
theorem actrMatching_headD_length (chunks : List Chunk) (cond : Cond)
    (h : cond ≠ []) :
    ((actrMatchingSource2chunk chunks cond).headD []).length = chunks.length := by
  cases cond with
  | nil => exact absurd rfl h
  | cons c0 rest => simp [actrMatchingSource2chunk]

/-- With the default strategy functions active, the spreading vector of
the dispatchers is the pure default computation, with no warning. -/
theorem spreadVecM_default (m : Memory) (cond : Cond)
    (h1 : m.useActrMatching = true) (h2 : m.useActrSji = true) (hc : cond ≠ []) :
    m.spreadVecM cond = (computeSpreadingVec m.chunkList cond m.Wp m.mas, false) := by
  unfold Memory.spreadVecM Memory.matchingDispatch Memory.sjiDispatch computeSpreadingVec
  rw [h1, h2]
  simp only [if_true]
  rw [actrMatching_headD_length m.chunkList cond hc]
  simp

/-- C9: if a custom matching-matrix function is installed and raises, the
matching dispatcher warns and uses the default matrix; if a custom sji
function is installed and raises, the sji dispatcher warns and uses the
default sji; and a spreading computation in which both installed functions
raise produces exactly the all-default vector together with the warning
flag - the dispatchers return plain values, so the raised exceptions never
escape to the caller of `spread`. -/
theorem c9_plugin_fallback (m : Memory) (cond : Cond) (mm : List (List Bool))
    (f : Cond → Except PyErr (List (List Bool)))
    (g : List (List Bool) → Except PyErr (List ℝ)) (e1 e2 : PyErr) :
    (m.useActrMatching = false → m.matchingFn = some f → f cond = .error e1 →
      m.matchingDispatch cond = (actrMatchingSource2chunk m.chunkList cond, true)) ∧
    (m.useActrSji = false → m.sjiFn = some g → g mm = .error e2 →
      m.sjiDispatch mm = (actrSji m.mas mm, true)) ∧
    (m.useActrMatching = false → m.matchingFn = some f → f cond = .error e1 →
      m.useActrSji = false → m.sjiFn = some g → (∀ x, g x = .error e2) →
      cond ≠ [] →
      m.spreadVecM cond = (computeSpreadingVec m.chunkList cond m.Wp m.mas, true)) := by
  refine ⟨?_, ?_, ?_⟩
  · intro hu hf hfe
    unfold Memory.matchingDispatch
    rw [hu, hf]
    simp [hfe]
  · intro hu hg hge
    unfold Memory.sjiDispatch
    rw [hu, hg]
    simp [hge]
  · intro hu hf hfe hus hg hge hc
    have hmd : m.matchingDispatch cond = (actrMatchingSource2chunk m.chunkList cond, true) := by
      unfold Memory.matchingDispatch
      rw [hu, hf]
      simp [hfe]
    have hsd : m.sjiDispatch (actrMatchingSource2chunk m.chunkList cond)
        = (actrSji m.mas (actrMatchingSource2chunk m.chunkList cond), true) := by
      unfold Memory.sjiDispatch
      rw [hus, hg]
      simp [hge]
    unfold Memory.spreadVecM
    rw [hmd]
    simp only
    rw [hsd]
    simp only
    unfold computeSpreadingVec
    rw [actrMatching_headD_length m.chunkList cond hc]
    simp

/-- A chunk for the C9 fallback scenario. -/
noncomputable def cC9 : Chunk := mkChunk [(0, 5)] 0 (.full [0])

/-- A memory with raising custom matching and sji functions installed. -/
noncomputable def mC9 : Memory :=
  { mkMem [([(0, 5)], cC9)] 1 0 (1/2) false with
      useActrMatching := false
      matchingFn := some (fun _ => .error .typeError)
      useActrSji := false
      sjiFn := some (fun _ => .error .typeError) }

/-- Witness for C9: both dispatchers fall back with a warning and the
spreading vector is the default one at a concrete cue. -/
theorem c9_plugin_fallback_witness :
    mC9.matchingDispatch [(7, 5)]
      = (actrMatchingSource2chunk mC9.chunkList [(7, 5)], true) ∧
    mC9.sjiDispatch [[true]] = (actrSji mC9.mas [[true]], true) ∧
    mC9.spreadVecM [(7, 5)]
      = (computeSpreadingVec mC9.chunkList [(7, 5)] mC9.Wp mC9.mas, true) := by
  have h := c9_plugin_fallback mC9 [(7, 5)] [[true]]
    (fun _ => .error .typeError) (fun _ => .error .typeError) .typeError .typeError
  exact ⟨h.1 rfl rfl rfl, h.2.1 rfl rfl rfl,
    h.2.2 rfl rfl rfl rfl rfl (fun _ => rfl) (by simp)⟩

/-- `getD` through `map` over `range`. -/
theorem getD_map_range {α : Type} (n : ℕ) (f : ℕ → α) (i : ℕ) (d : α)
    (h : i < n) : ((List.range n).map f).getD i d = f i := by
  rw [List.getD_eq_getElem?_getD, List.getElem?_map, List.getElem?_range h]
  rfl

/-- `getD` through `map` below the length. -/
theorem getD_map_lt {α β : Type} (l : List α) (g : α → β) (j : ℕ) (d : β)
    (da : α) (h : j < l.length) : (l.map g).getD j d = g (l.getD j da) := by
  rw [List.getD_eq_getElem?_getD, List.getElem?_map,
    List.getElem?_eq_getElem h]
  rw [List.getD_eq_getElem?_getD, List.getElem?_eq_getElem h]
  rfl

/-- The row sum of a mapped boolean row counts the satisfying elements. -/
theorem rowCount_map {α : Type} (l : List α) (p : α → Bool) :
    rowCount (l.map p) = l.countP p := by
  unfold rowCount
  rw [List.filter_map, List.length_map, List.countP_eq_length_filter]
  congr 1

/-- The default chunk used only as a `getD` fallback. -/
def padChunk : Chunk :=
  { content := [], creation := 0, refs := .full [], memo := none,
    spreading := none, importance := 0 }

/-- C1 (amended): in the default spreading computation, the associative
strength `sji` is computed per cue SLOT from the slot's fan - one plus the
number of stored chunks whose values contain that slot's cue value (the
matrix built by the source has one row per cue slot, so its row sums are
per slot) - and each chunk's spreading contribution is
`Σ over slots j of (W/M) * sji[j] * matrix[j][chunk]`. -/
theorem c1_spreading_per_slot (chunks : List Chunk) (cond : Cond) (W mas : ℝ)
    (i : ℕ) (hi : i < chunks.length) :
    (computeSpreadingVec chunks cond W mas).getD i 0 =
      ((List.range cond.length).map (fun j =>
        W / (cond.length : ℝ) *
          (mas - Real.log
            (((chunks.countP (fun ch => decide ((cond.getD j (0, 0)).2 ∈ ch.valueList))) : ℝ) + 1)) *
          (if (cond.getD j (0, 0)).2 ∈ (chunks.getD i padChunk).valueList
            then (1 : ℝ) else 0))).sum := by
  unfold computeSpreadingVec combineSpread
  rw [getD_map_range chunks.length _ i 0 hi]
  have hlen : (actrMatchingSource2chunk chunks cond).length = cond.length := by
    simp [actrMatchingSource2chunk]
  rw [hlen]
  congr 1
  apply List.map_congr_left
  intro j hj
  rw [List.mem_range] at hj
  have hsji : (actrSji mas (actrMatchingSource2chunk chunks cond)).getD j 0
      = mas - Real.log
          (((chunks.countP (fun ch => decide ((cond.getD j (0, 0)).2 ∈ ch.valueList))) : ℝ) + 1) := by
    unfold actrSji
    rw [getD_map_lt _ _ j 0 [] (by rw [hlen]; exact hj)]
    unfold actrMatchingSource2chunk
    rw [getD_map_lt cond _ j [] (0, 0) hj, rowCount_map]
  have hmmj : (actrMatchingSource2chunk chunks cond).getD j []
      = chunks.map (fun c => decide ((cond.getD j (0, 0)).2 ∈ c.valueList)) := by
    unfold actrMatchingSource2chunk
    rw [getD_map_lt cond _ j [] (0, 0) hj]
  rw [hsji, hmmj, getD_map_lt chunks _ i false padChunk hi]
  by_cases hmem : (cond.getD j (0, 0)).2 ∈ (chunks.getD i padChunk).valueList
  · simp [hmem]
  · simp [hmem]

/-- Witness for the amended C1 at a concrete store and cue. -/
theorem c1_spreading_per_slot_witness :
    (0 : ℕ) < 2 ∧
    (computeSpreadingVec [mkChunk [(0, 1), (1, 2)] 0 (.full [0]),
        mkChunk [(2, 1), (3, 3)] 0 (.full [0])] [(7, 1), (8, 2)] 1 (8/5)).getD 0 0 =
      ((List.range ([((7 : Slot), (1 : Val)), (8, 2)] : Cond).length).map (fun j =>
        (1 : ℝ) / (([((7 : Slot), (1 : Val)), (8, 2)] : Cond).length : ℝ) *
          ((8 : ℝ)/5 - Real.log
            ((([mkChunk [(0, 1), (1, 2)] 0 (.full [0]),
                mkChunk [(2, 1), (3, 3)] 0 (.full [0])].countP
              (fun ch => decide ((([((7 : Slot), (1 : Val)), (8, 2)] : Cond).getD j (0, 0)).2 ∈ ch.valueList))) : ℝ) + 1)) *
          (if (([((7 : Slot), (1 : Val)), (8, 2)] : Cond).getD j (0, 0)).2 ∈
              ([mkChunk [(0, 1), (1, 2)] 0 (.full [0]),
                mkChunk [(2, 1), (3, 3)] 0 (.full [0])].getD 0 padChunk).valueList
            then (1 : ℝ) else 0))).sum :=
  ⟨by decide,
   c1_spreading_per_slot [mkChunk [(0, 1), (1, 2)] 0 (.full [0]),
     mkChunk [(2, 1), (3, 3)] 0 (.full [0])] [(7, 1), (8, 2)] 1 (8/5) 0 (by decide)⟩

/-- First chunk of the C1 counterexample (values 1 and 2). -/
noncomputable def cC1a : Chunk := mkChunk [(0, 1), (1, 2)] 0 (.full [0])

/-- Second chunk of the C1 counterexample (values 1 and 3). -/
noncomputable def cC1b : Chunk := mkChunk [(0, 1), (1, 3)] 0 (.full [0])

/-- Counterexample to C1 as stated: the spreading vector computed by the
source differs from the one prescribed by the claim (per-chunk fan over
the chunk-by-slot matrix).  With two chunks of values {1,2} and {1,3} and
cue values 1 and 2, the source gives the first chunk
`(8/5 - ln 3)/2 + (8/5 - ln 2)/2` while the claim prescribes `8/5 - ln 3`. -/
theorem c1_counterexample :
    computeSpreadingVec [cC1a, cC1b] [(7, 1), (8, 2)] 1 (8/5)
      ≠ claimedSpreadingVec [cC1a, cC1b] [(7, 1), (8, 2)] 1 (8/5) := by
  have hlog : Real.log 2 < Real.log 3 := Real.log_lt_log (by norm_num) (by norm_num)
  intro hEq
  have h0 := congrArg (fun l => l.getD 0 0) hEq
  simp only [computeSpreadingVec, claimedSpreadingVec, combineSpread,
    actrMatchingSource2chunk, actrSji, claimedMatrix, rowCount,
    cC1a, cC1b, mkChunk, Chunk.valueList] at h0
  norm_num [List.range_succ] at h0
  linarith [hlog]

/-- The default spreading vector has one entry per stored chunk. -/
theorem computeSpreadingVec_length (chunks : List Chunk) (cond : Cond) (W mas : ℝ) :
    (computeSpreadingVec chunks cond W mas).length = chunks.length := by
  simp [computeSpreadingVec, combineSpread]

/-- `getD` through `zipWith` below both lengths. -/
theorem getD_zipWith {α β γ : Type} (f : α → β → γ) :
    ∀ (l : List α) (v : List β) (i : ℕ) (d : γ) (da : α) (db : β),
    i < l.length → i < v.length →
    (List.zipWith f l v).getD i d = f (l.getD i da) (v.getD i db)
  | _ :: _, _ :: _, 0, _, _, _, _, _ => rfl
  | _ :: l, _ :: v, i + 1, d, da, db, h1, h2 =>
    getD_zipWith f l v i d da db (by simpa using h1) (by simpa using h2)
  | [], _, i, _, _, _, h1, _ => absurd h1 (by simp)
  | _ :: _, [], i, _, _, _, _, h2 => absurd h2 (by simp)

/-- C4 (amended): a `spread` call without the auto-clear flag succeeds on a
nonempty cue under the default strategy functions, and each chunk's
post-call accumulator is the pre-call accumulator plus the newly computed
contribution ONLY when both are set and nonzero; in every other case -
in particular whenever the new contribution is exactly zero - the
accumulator is overwritten with the new contribution. -/
theorem c4_spread_accumulate (m : Memory) (cond : Cond)
    (h1 : m.useActrMatching = true) (h2 : m.useActrSji = true) (hc : cond ≠ []) :
    ∃ m', m.spread false cond = .ok m' ∧
      m'.chunks.length = m.chunks.length ∧
      ∀ i, i < m.chunks.length →
        (m'.chunks.getD i ([], padChunk)).2.spreading =
          (match (m.chunks.getD i ([], padChunk)).2.spreading with
           | some y =>
             if (computeSpreadingVec m.chunkList cond m.Wp m.mas).getD i 0 ≠ 0 ∧ y ≠ 0
             then some (y + (computeSpreadingVec m.chunkList cond m.Wp m.mas).getD i 0)
             else some ((computeSpreadingVec m.chunkList cond m.Wp m.mas).getD i 0)
           | none => some ((computeSpreadingVec m.chunkList cond m.Wp m.mas).getD i 0)) := by
  have hvm := spreadVecM_default m cond h1 h2 hc
  have hlen : (m.spreadVecM cond).1.length = m.chunks.length := by
    rw [hvm]
    simp only
    rw [computeSpreadingVec_length]
    simp [Memory.chunkList]
  have hempty : cond.isEmpty = false := by
    cases cond with
    | nil => exact absurd rfl hc
    | cons a b => rfl
  refine ⟨{ m with chunks := List.zipWith (fun e v => (e.1, e.2.setSpreading (some v))) m.chunks (m.spreadVecM cond).1 }, ?_, ?_, ?_⟩
  · unfold Memory.spread
    rw [hempty]
    simp only [Bool.false_eq_true, if_false]
    rw [if_neg (by rw [hlen]; exact fun h => h rfl)]
  · simp only [List.length_zipWith, hlen, min_self]
  · intro i hi
    have hiv : i < (m.spreadVecM cond).1.length := by rw [hlen]; exact hi
    simp only
    rw [getD_zipWith _ m.chunks (m.spreadVecM cond).1 i ([], padChunk) ([], padChunk) 0 hi hiv]
    have hval : (m.spreadVecM cond).1.getD i 0
        = (computeSpreadingVec m.chunkList cond m.Wp m.mas).getD i 0 := by
      rw [hvm]
    simp only
    rw [hval]
    generalize (computeSpreadingVec m.chunkList cond m.Wp m.mas).getD i 0 = v
    generalize m.chunks.getD i ([], padChunk) = e
    cases hsp : e.2.spreading with
    | none => simp [Chunk.setSpreading, hsp]
    | some y =>
      simp [Chunk.setSpreading, hsp]
      split <;> rfl

/-- The single-chunk memory of the C4 witness. -/
noncomputable def mC4w : Memory :=
  mkMem [([(0, 5)], mkChunk [(0, 5)] 0 (.full [0]))] 1 0 (1/2) false

/-- Witness for the amended C4 (single chunk, one spread call). -/
theorem c4_spread_accumulate_witness :
    ∃ m', mC4w.spread false [(7, 5)] = .ok m' ∧
      m'.chunks.length = mC4w.chunks.length ∧
      ∀ i, i < mC4w.chunks.length →
        (m'.chunks.getD i ([], padChunk)).2.spreading =
          (match (mC4w.chunks.getD i ([], padChunk)).2.spreading with
           | some y =>
             if (computeSpreadingVec mC4w.chunkList [(7, 5)] mC4w.Wp mC4w.mas).getD i 0 ≠ 0 ∧ y ≠ 0
             then some (y + (computeSpreadingVec mC4w.chunkList [(7, 5)] mC4w.Wp mC4w.mas).getD i 0)
             else some ((computeSpreadingVec mC4w.chunkList [(7, 5)] mC4w.Wp mC4w.mas).getD i 0)
           | none => some ((computeSpreadingVec mC4w.chunkList [(7, 5)] mC4w.Wp mC4w.mas).getD i 0)) :=
  c4_spread_accumulate mC4w [(7, 5)] rfl rfl (by simp)

/-- First chunk of the C4 counterexample. -/
noncomputable def cC4a : Chunk := mkChunk [(0, 10)] 0 (.full [0])

/-- Second chunk of the C4 counterexample. -/
noncomputable def cC4b : Chunk := mkChunk [(0, 20)] 0 (.full [0])

/-- Two chunks; the first matches cue value 10, the second cue value 20. -/
noncomputable def mC4 : Memory :=
  mkMem [([(0, 10)], cC4a), ([(0, 20)], cC4b)] 1 0 (1/2) false

/-- State after `spread` with cue value 10. -/
noncomputable def mC4mid : Memory :=
  { mC4 with chunks := [([(0, 10)], { cC4a with spreading := some ((8:ℝ)/5 - Real.log 2) }), ([(0, 20)], { cC4b with spreading := some 0 })] }

/-- State after the second `spread` with cue value 20: the first chunk's
accumulator has been wiped to 0. -/
noncomputable def mC4fin : Memory :=
  { mC4 with chunks := [([(0, 10)], { cC4a with spreading := some 0 }), ([(0, 20)], { cC4b with spreading := some ((8:ℝ)/5 - Real.log 2) })] }

theorem c4step1 : mC4.spread false [(5, 10)] = .ok mC4mid := by
  have hvec : (mC4.spreadVecM [(5, 10)]).1 = [(8:ℝ)/5 - Real.log 2, 0] := by
    rw [spreadVecM_default mC4 [(5, 10)] rfl rfl (by simp)]
    simp only
    simp [computeSpreadingVec, combineSpread, actrMatchingSource2chunk, actrSji,
      rowCount, Chunk.valueList, Memory.chunkList, mC4, mkMem, cC4a, cC4b, mkChunk,
      List.range_succ]
    norm_num
  unfold Memory.spread
  simp only [List.isEmpty_cons, Bool.false_eq_true, if_false, hvec]
  norm_num [mC4, mkMem]
  simp [mC4mid, mC4, mkMem, cC4a, cC4b, mkChunk, Chunk.setSpreading]
  rw [show ((1:ℝ) - 2⁻¹) = 2⁻¹ from by norm_num, Real.log_inv]

theorem c4step2 : mC4mid.spread false [(5, 20)] = .ok mC4fin := by
  have hvec : (mC4mid.spreadVecM [(5, 20)]).1 = [0, (8:ℝ)/5 - Real.log 2] := by
    rw [spreadVecM_default mC4mid [(5, 20)] rfl rfl (by simp)]
    simp only
    simp [computeSpreadingVec, combineSpread, actrMatchingSource2chunk, actrSji,
      rowCount, Chunk.valueList, Memory.chunkList, mC4mid, mC4, mkMem, cC4a, cC4b,
      mkChunk, List.range_succ]
    norm_num
  unfold Memory.spread
  simp only [List.isEmpty_cons, Bool.false_eq_true, if_false, hvec]
  norm_num [mC4mid, mC4, mkMem]
  simp [mC4fin, mC4mid, mC4, mkMem, cC4a, cC4b, mkChunk, Chunk.setSpreading]
  rw [show ((1:ℝ) - 2⁻¹) = 2⁻¹ from by norm_num, Real.log_inv]

/-- Counterexample to C4 as stated: after a first spread sets the first
chunk's accumulator to `8/5 - ln 2`, a second spread whose contribution to
that chunk is exactly 0 OVERWRITES the accumulator with 0 instead of
adding: the post-call accumulator is 0, not `(8/5 - ln 2) + 0`. -/
theorem c4_counterexample :
    ((mC4.spread false [(5, 10)]).bind (fun m2 => m2.spread false [(5, 20)])).map
        (fun mf => mf.chunks.map (fun e => e.2.spreading))
      = .ok [some 0, some ((8:ℝ)/5 - Real.log 2)] ∧
    (some (((8:ℝ)/5 - Real.log 2) + 0) : Option ℝ) ≠ some 0 := by
  constructor
  · rw [c4step1]
    simp only [Except.bind]
    rw [c4step2]
    simp [mC4fin, mC4, mkMem, cC4a, cC4b, mkChunk, Except.map]
  · intro h
    injection h with h
    have hl := Real.log_two_lt_d9
    norm_num at h
    linarith

/-- `find?` through `updateStore`: the same entry is found, transformed. -/
theorem find?_updateStore (sig : Sig) (f : Chunk → Chunk) (l : List (Sig × Chunk)) :
    (updateStore sig f l).find? (fun e => e.1 == sig)
      = (l.find? (fun e => e.1 == sig)).map (fun e => (e.1, f e.2)) := by
  induction l with
  | nil => rfl
  | cons e rest ih =>
    by_cases he : (e.1 == sig) = true
    · have hu : updateStore sig f (e :: rest) = (e.1, f e.2) :: updateStore sig f rest := by
        unfold updateStore
        rw [List.map_cons, if_pos he]
      rw [hu]
      simp only [List.find?_cons, he]
      rfl
    · have hf : (e.1 == sig) = false := by
        cases hb : (e.1 == sig) with
        | true => exact absurd hb he
        | false => rfl
      have hu : updateStore sig f (e :: rest) = e :: updateStore sig f rest := by
        unfold updateStore
        rw [List.map_cons, if_neg (by rw [hf]; intro hx; cases hx)]
      rw [hu]
      simp only [List.find?_cons, hf]
      exact ih

/-- `find?` over an append when the key is absent on the left. -/
theorem find?_append_right (l : List (Sig × Chunk)) (sig : Sig) (c : Chunk)
    (h : l.find? (fun e => e.1 == sig) = none) :
    (l ++ [(sig, c)]).find? (fun e => e.1 == sig) = some (sig, c) := by
  induction l with
  | nil =>
    simp only [List.nil_append, List.find?_cons]
    have : ((sig, c).1 == sig) = true := by simp
    simp [this]
  | cons e rest ih =>
    have hf : (e.1 == sig) = false := by
      cases hb : (e.1 == sig) with
      | true =>
        exfalso
        simp only [List.find?_cons, hb] at h
        cases h
      | false => rfl
    simp only [List.find?_cons, hf] at h
    rw [List.cons_append]
    simp only [List.find?_cons, hf]
    exact ih h

/-- The importance value the setter stores for a given argument and draw. -/
noncomputable def impVal : ImpArg → ℚ → ℝ
  | .noneA, p => Real.log (p : ℝ)
  | .falseA, p => Real.log (p : ℝ)
  | .num q, _ => (q : ℝ)

theorem setImportance_importance (c : Chunk) (imp : ImpArg) (p : ℚ) :
    (c.setImportance imp p).importance = impVal imp p := by
  cases imp <;> rfl

/-- After any successful `learn`, the stored chunk's importance is exactly
what the setter computed from the importance argument. -/
theorem learn_importance (m : Memory) (attrs : Cond) (p : ℚ) (imp : ImpArg)
    (h : attrs ≠ []) (b : Bool) (m' : Memory)
    (hl : m.learn imp attrs p = .ok (b, m')) :
    (m'.findChunk (signatureOf attrs)).map Chunk.importance = some (impVal imp p) := by
  have hempty : attrs.isEmpty = false := by
    cases attrs with
    | nil => exact absurd rfl h
    | cons a b => rfl
  unfold Memory.learn at hl
  rw [hempty] at hl
  simp only [Bool.false_eq_true, if_false] at hl
  cases hf : m.findChunk (signatureOf attrs) with
  | some c =>
    rw [hf] at hl
    simp only [Except.ok.injEq, Prod.mk.injEq] at hl
    rw [← hl.2]
    unfold Memory.findChunk at hf ⊢
    rw [find?_updateStore]
    cases hfind : m.chunks.find? (fun e => e.1 == signatureOf attrs) with
    | none => rw [hfind] at hf; cases hf
    | some e0 =>
      simp [setImportance_importance]
  | none =>
    rw [hf] at hl
    simp only [Except.ok.injEq, Prod.mk.injEq] at hl
    rw [← hl.2]
    unfold Memory.findChunk at hf ⊢
    simp only
    rw [find?_append_right]
    · simp [setImportance_importance]
    · cases hfind : m.chunks.find? (fun e => e.1 == signatureOf attrs) with
      | none => rfl
      | some e0 => rw [hfind] at hf; cases hf

/-- C5 (amended): a `learn` call in which the caller does not supply an
importance (the Python default argument is the NUMBER 0, which the setter
treats as an explicit value) stores importance 0.0; the randomly sampled
log-transformed salience `log(p)` is stored only when the caller
explicitly passes `None` (or `False`). -/
theorem c5_importance_default (m : Memory) (attrs : Cond) (p : ℚ)
    (h : attrs ≠ []) :
    (∀ b m', m.learn (.num 0) attrs p = .ok (b, m') →
      (m'.findChunk (signatureOf attrs)).map Chunk.importance = some 0) ∧
    (∀ b m', m.learn .noneA attrs p = .ok (b, m') →
      (m'.findChunk (signatureOf attrs)).map Chunk.importance
        = some (Real.log (p : ℝ))) := by
  constructor
  · intro b m' hl
    have := learn_importance m attrs p (.num 0) h b m' hl
    simpa [impVal] using this
  · intro b m' hl
    exact learn_importance m attrs p .noneA h b m' hl

/-- The empty memory of the C5 scenario. -/
noncomputable def mC5 : Memory := mkMem [] 0 0 (1/2) false

/-- Witness for the amended C5 at a concrete call. -/
theorem c5_importance_default_witness :
    (∀ b m', mC5.learn (.num 0) [(0, 5)] (3/2) = .ok (b, m') →
      (m'.findChunk (signatureOf [(0, 5)])).map Chunk.importance = some 0) ∧
    (∀ b m', mC5.learn .noneA [(0, 5)] (3/2) = .ok (b, m') →
      (m'.findChunk (signatureOf [(0, 5)])).map Chunk.importance
        = some (Real.log (((3:ℚ)/2 : ℚ) : ℝ))) :=
  c5_importance_default mC5 [(0, 5)] (3/2) (by simp)

/-- Counterexample to C5 as stated: learning without an explicit
importance stores 0, which is not the log-transformed salience of the
uniform draw (here `log(3/2) > 0`). -/
theorem c5_counterexample :
    ((mC5.learn (.num 0) [(0, 5)] (3/2)).map
        (fun r => (r.2.findChunk (signatureOf [(0, 5)])).map Chunk.importance))
      = .ok (some 0) ∧
    (0 : ℝ) ≠ Real.log (((3:ℚ)/2 : ℚ) : ℝ) := by
  constructor
  · cases hl : mC5.learn (.num 0) [(0, 5)] (3/2) with
    | error e =>
      exfalso
      unfold Memory.learn mC5 at hl
      simp [mkMem, Memory.findChunk] at hl
    | ok r =>
      obtain ⟨b, m'⟩ := r
      have h := learn_importance mC5 [(0, 5)] (3/2) (.num 0) (by simp) b m' hl
      simp only [Except.map, hl]
      simpa [impVal] using h
  · intro h
    have : (0 : ℝ) < Real.log (((3:ℚ)/2 : ℚ) : ℝ) := by
      apply Real.log_pos
      push_cast
      norm_num
    linarith [this]

/-- A list all of whose elements equal `a` commutes with appending `a`. -/
theorem all_eq_append (a : ℚ) : ∀ (t : List ℚ), (∀ x ∈ t, x = a) →
    t ++ [a] = a :: t := by
  intro t
  induction t with
  | nil => intro _; rfl
  | cons b t' ih =>
    intro h
    have hb : b = a := h b (by simp)
    subst hb
    rw [List.cons_append, ih (fun x hx => h x (by simp [hx]))]

/-- Removing the first occurrence of `w` from `l ++ [w]` recovers `l` when
`l` is nondecreasing with all elements at most `w` (the shape of a
reference list at the time of the matching `learn`). -/
theorem erase_append_of_le (w : ℚ) : ∀ (l : List ℚ),
    (∀ x ∈ l, x ≤ w) → l.Pairwise (· ≤ ·) → (l ++ [w]).erase w = l := by
  intro l
  induction l with
  | nil => intro _ _; simp
  | cons a t ih =>
    intro hle hpw
    by_cases haw : a = w
    · subst haw
      have hta : ∀ x ∈ t, x = a := by
        intro x hx
        exact le_antisymm (hle x (by simp [hx])) ((List.pairwise_cons.mp hpw).1 x hx)
      rw [List.cons_append, List.erase_cons_head]
      exact all_eq_append a t hta
    · have hne : ¬ (a == w) = true := by simpa using haw
      rw [List.cons_append, List.erase_cons]
      simp only [hne, Bool.false_eq_true, if_false]
      rw [ih (fun x hx => hle x (by simp [hx])) (List.pairwise_cons.mp hpw).2]

/-- Removing an appended novel entry recovers the original store. -/
theorem removeStore_append (l : List (Sig × Chunk)) (sig : Sig) (c : Chunk)
    (h : l.find? (fun e => e.1 == sig) = none) :
    removeStore sig (l ++ [(sig, c)]) = l := by
  unfold removeStore
  rw [List.filter_append]
  have h1 : List.filter (fun e => !(e.1 == sig)) [(sig, c)] = [] := by simp
  rw [h1, List.append_nil]
  apply List.filter_eq_self.mpr
  intro e he
  have := List.find?_eq_none.mp h e he
  simpa using this

/-- Consecutive `updateStore`s on the same key compose. -/
theorem updateStore_comp (sig : Sig) (f g : Chunk → Chunk) (l : List (Sig × Chunk)) :
    updateStore sig g (updateStore sig f l) = updateStore sig (fun c => g (f c)) l := by
  unfold updateStore
  rw [List.map_map]
  apply List.map_congr_left
  intro e _
  by_cases he : (e.1 == sig) = true
  · simp [Function.comp, he]
  · simp [Function.comp, he]

/-- `updateStore` only depends on the update function's values at the
chunks stored under the key. -/
theorem updateStore_congr (sig : Sig) (f g : Chunk → Chunk) (l : List (Sig × Chunk))
    (h : ∀ e ∈ l, e.1 = sig → f e.2 = g e.2) :
    updateStore sig f l = updateStore sig g l := by
  unfold updateStore
  apply List.map_congr_left
  intro e he
  by_cases h1 : (e.1 == sig) = true
  · rw [if_pos h1, if_pos h1, h e he (by simpa using h1)]
  · rw [if_neg h1, if_neg h1]

/-- In a store with no duplicate keys, any two entries sharing a key are
the same entry. -/
theorem key_unique : ∀ (l : List (Sig × Chunk)), (l.map Prod.fst).Nodup →
    ∀ e ∈ l, ∀ e' ∈ l, e.1 = e'.1 → e = e' := by
  intro l
  induction l with
  | nil => intro _ e he; cases he
  | cons a t ih =>
    intro hnd e he e' he' hk
    rw [List.map_cons, List.nodup_cons] at hnd
    rcases List.mem_cons.mp he with rfl | het
    · rcases List.mem_cons.mp he' with rfl | het'
      · rfl
      · exact absurd (List.mem_map.mpr ⟨e', het', hk.symm⟩) hnd.1
    · rcases List.mem_cons.mp he' with rfl | het'
      · exact absurd (List.mem_map.mpr ⟨e, het, hk⟩) hnd.1
      · exact ih hnd.2 e het e' het' hk

/-- The entry returned by `find?` satisfies the predicate. -/
theorem find?_pred (p : Sig × Chunk → Bool) : ∀ (l : List (Sig × Chunk)) (e0 : Sig × Chunk),
    l.find? p = some e0 → p e0 = true := by
  intro l
  induction l with
  | nil => intro e0 h; cases h
  | cons a t ih =>
    intro e0 h
    by_cases ha : p a = true
    · simp only [List.find?_cons, ha] at h
      cases h
      exact ha
    · have hfa : p a = false := by
        cases hb : p a with
        | true => exact absurd hb ha
        | false => rfl
      simp only [List.find?_cons, hfa] at h
      exact ih e0 h

/-- A found entry in a nodup-key store is the unique entry with that key. -/
theorem find?_key_unique (l : List (Sig × Chunk)) (sig : Sig) (e0 : Sig × Chunk)
    (hnd : (l.map Prod.fst).Nodup)
    (hf : l.find? (fun e => e.1 == sig) = some e0) :
    ∀ e ∈ l, e.1 = sig → e = e0 := by
  intro e he hk
  have hmem : e0 ∈ l := List.mem_of_find?_eq_some hf
  have hkey : (e0.1 == sig) = true := find?_pred (fun e => e.1 == sig) l e0 hf
  exact key_unique l hnd e he e0 hmem (by rw [hk]; symm; simpa using hkey)

theorem setImportance_eq (c : Chunk) (imp : ImpArg) (p : ℚ) :
    c.setImportance imp p = { c with importance := impVal imp p } := by
  cases imp <;> rfl

/-- C6 (amended): `forget` with a missing chunk returns `False` and leaves
the store unchanged (any mode); in non-optimized mode a `when` not present
in the reference list returns `False` with nothing changed, while in
optimized mode `when` is IGNORED: the count is decremented (the chunk
deleted at zero) and `True` returned whenever the chunk exists.  A
`forget` at the current time after a `learn` undoes the learn's reference
bookkeeping exactly - removing a fresh chunk entirely, restoring an
existing chunk's reference list - but it does NOT undo the learn's
importance overwrite: the surviving chunk keeps the importance the learn
stored. -/
theorem c6_forget_behavior (m : Memory) (attrs : Cond) (wh : ℚ) :
    (attrs ≠ [] → m.findChunk (signatureOf attrs) = none →
      m.forget wh attrs = .ok (false, m)) ∧
    (∀ c l, attrs ≠ [] → m.optimized = false →
      m.findChunk (signatureOf attrs) = some c → c.refs = .full l → wh ∉ l →
      m.forget wh attrs = .ok (false, m)) ∧
    (∀ c n, attrs ≠ [] → m.optimized = true →
      m.findChunk (signatureOf attrs) = some c → c.refs = .opt n →
      m.forget wh attrs = .ok (true,
        if n - 1 = 0 then { m with chunks := removeStore (signatureOf attrs) m.chunks }
        else { m with chunks := updateStore (signatureOf attrs) (fun c0 => { c0 with refs := .opt (n - 1) }) m.chunks })) ∧
    (∀ (imp : ImpArg) (p : ℚ), attrs ≠ [] → m.optimized = false →
      (m.chunks.map Prod.fst).Nodup →
      ((m.findChunk (signatureOf attrs) = none →
        ∃ m2, m.learn imp attrs p = .ok (true, m2) ∧
          m2.forget m.time attrs = .ok (true, m)) ∧
       (∀ c l, m.findChunk (signatureOf attrs) = some c → c.refs = .full l →
        l ≠ [] → l.Pairwise (· ≤ ·) → (∀ x ∈ l, x ≤ m.time) →
        ∃ m2, m.learn imp attrs p = .ok (false, m2) ∧
          m2.forget m.time attrs = .ok (true,
            { m with chunks := updateStore (signatureOf attrs) (fun c0 => { c0 with importance := impVal imp p }) m.chunks })))) := by
  have hempty : attrs ≠ [] → attrs.isEmpty = false := by
    intro h
    cases attrs with
    | nil => exact absurd rfl h
    | cons a b => rfl
  refine ⟨?_, ?_, ?_, ?_⟩
  · intro h hf
    unfold Memory.forget
    rw [hempty h]
    simp only [Bool.false_eq_true, if_false, hf]
  · intro c l h hopt hf hrefs hmem
    unfold Memory.forget
    rw [hempty h]
    simp only [Bool.false_eq_true, if_false, hf, hopt, hrefs]
    rw [if_neg hmem]
  · intro c n h hopt hf hrefs
    unfold Memory.forget
    rw [hempty h]
    simp only [Bool.false_eq_true, if_false, hf, hopt, hrefs, if_true]
    by_cases hn : n - 1 = 0
    · rw [if_pos hn, if_pos hn]
    · rw [if_neg hn, if_neg hn]
  · intro imp p h hopt hnd
    constructor
    · intro hf
      have hfind : m.chunks.find? (fun e => e.1 == signatureOf attrs) = none := by
        unfold Memory.findChunk at hf
        cases hx : m.chunks.find? (fun e => e.1 == signatureOf attrs) with
        | none => rfl
        | some e0 => rw [hx] at hf; cases hf
      have hlearn : m.learn imp attrs p = .ok (true, { m with chunks := m.chunks ++ [(signatureOf attrs, (((Chunk.new m attrs)).addReference m).setImportance imp p)] }) := by
        unfold Memory.learn
        rw [hempty h]
        simp only [Bool.false_eq_true, if_false, hf]
      refine ⟨_, hlearn, ?_⟩
      have hf2 : Memory.findChunk { m with chunks := m.chunks ++ [(signatureOf attrs, (((Chunk.new m attrs)).addReference m).setImportance imp p)] } (signatureOf attrs) = some ((((Chunk.new m attrs)).addReference m).setImportance imp p) := by
        unfold Memory.findChunk
        simp only
        rw [find?_append_right m.chunks (signatureOf attrs) _ hfind]
        rfl
      have hrefs2 : ((((Chunk.new m attrs)).addReference m).setImportance imp p).refs = .full [m.time] := by
        rw [setImportance_eq]
        simp [Chunk.new, Chunk.addReference, hopt]
      unfold Memory.forget
      rw [hempty h]
      simp only [Bool.false_eq_true, if_false]
      rw [hf2]
      simp only [hopt, hrefs2, Bool.false_eq_true, if_false]
      rw [if_pos (by simp : m.time ∈ [m.time])]
      rw [show ([m.time] : List ℚ).erase m.time = [] from by simp]
      simp only [List.isEmpty_nil, if_true]
      rw [removeStore_append m.chunks (signatureOf attrs) _ hfind]
      rw [← hopt]
    · intro c l hf hrefs hlne hpw hle
      obtain ⟨e0, he0, he0c⟩ : ∃ e0, m.chunks.find? (fun e => e.1 == signatureOf attrs) = some e0 ∧ e0.2 = c := by
        unfold Memory.findChunk at hf
        cases hx : m.chunks.find? (fun e => e.1 == signatureOf attrs) with
        | none => rw [hx] at hf; cases hf
        | some e0 =>
          rw [hx] at hf
          refine ⟨e0, rfl, ?_⟩
          injection hf
      have hlearn : m.learn imp attrs p = .ok (false, { m with chunks := updateStore (signatureOf attrs) (fun c0 => (c0.addReference m).setImportance imp p) m.chunks }) := by
        unfold Memory.learn
        rw [hempty h]
        simp only [Bool.false_eq_true, if_false, hf]
      refine ⟨_, hlearn, ?_⟩
      have hf2 : Memory.findChunk { m with chunks := updateStore (signatureOf attrs) (fun c0 => (c0.addReference m).setImportance imp p) m.chunks } (signatureOf attrs) = some ((c.addReference m).setImportance imp p) := by
        unfold Memory.findChunk
        simp only
        rw [find?_updateStore, he0]
        simp [he0c]
      have hrefs2 : ((c.addReference m).setImportance imp p).refs = .full (l ++ [m.time]) := by
        rw [setImportance_eq]
        simp [Chunk.addReference, hopt, hrefs]
      have hlempty : l.isEmpty = false := by
        cases l with
        | nil => exact absurd rfl hlne
        | cons a b => rfl
      unfold Memory.forget
      rw [hempty h]
      simp only [Bool.false_eq_true, if_false]
      rw [hf2]
      simp only [hopt, hrefs2, Bool.false_eq_true, if_false]
      rw [if_pos (by simp : m.time ∈ l ++ [m.time])]
      rw [erase_append_of_le m.time l hle hpw]
      rw [hlempty]
      simp only [Bool.false_eq_true, if_false, Except.ok.injEq, Prod.mk.injEq]
      refine ⟨trivial, ?_⟩
      have hcomp := updateStore_comp (signatureOf attrs) (fun c0 => (c0.addReference m).setImportance imp p) (fun c0 => { c0 with refs := .full l }) m.chunks
      rw [hcomp]
      have hcongr : updateStore (signatureOf attrs) (fun c0 => { (c0.addReference m).setImportance imp p with refs := .full l }) m.chunks = updateStore (signatureOf attrs) (fun c0 => { c0 with importance := impVal imp p }) m.chunks := by
        apply updateStore_congr
        intro e he hk
        have heq : e = e0 := find?_key_unique m.chunks (signatureOf attrs) e0 hnd he0 e he hk
        rw [heq, he0c]
        rw [setImportance_eq]
        cases c with
        | mk content creation refs memo spreading importance =>
          simp only [Chunk.addReference, hopt, Bool.false_eq_true, if_false]
          simp only [Refs.full.injEq] at hrefs
          simp [hrefs]
      simp only [hcongr]

/-- Optimized-mode chunk for the C6 scenario (count 1, learned at 0). -/
noncomputable def cC6o : Chunk := mkChunk [(0, 1)] 0 (.opt 1)

/-- Optimized memory at time 1 whose only chunk was learned at time 0. -/
noncomputable def mC6o : Memory := mkMem [([(0, 1)], cC6o)] 1 0 (1/2) true

/-- Non-optimized chunk with importance 7 referenced at time 0. -/
noncomputable def cC6n : Chunk := { mkChunk [(0, 1)] 0 (.full [0]) with importance := 7 }

/-- The non-optimized memory of the C6 scenario, at time 1. -/
noncomputable def mC6n : Memory := mkMem [([(0, 1)], cC6n)] 1 0 (1/2) false

/-- State after re-learning the chunk with the default importance. -/
noncomputable def cC6mid : Chunk := { cC6n with refs := .full [0, 1], importance := 0 }

noncomputable def mC6mid : Memory := { mC6n with chunks := [([(0, 1)], cC6mid)] }

/-- State after the matching forget: references restored, importance not. -/
noncomputable def cC6fin : Chunk := { cC6mid with refs := .full [0] }

noncomputable def mC6fin : Memory := { mC6n with chunks := [([(0, 1)], cC6fin)] }

/-- Witness for the amended C6 at concrete states. -/
theorem c6_forget_behavior_witness :
    mC6n.forget 5 [(1, 2)] = .ok (false, mC6n) ∧
    mC6n.forget 5 [(0, 1)] = .ok (false, mC6n) ∧
    mC6o.forget 5 [(0, 1)] = .ok (true,
      if (1 : ℤ) - 1 = 0 then { mC6o with chunks := removeStore (signatureOf [(0, 1)]) mC6o.chunks }
      else { mC6o with chunks := updateStore (signatureOf [(0, 1)]) (fun c0 => { c0 with refs := .opt ((1 : ℤ) - 1) }) mC6o.chunks }) ∧
    (∃ m2, mC6n.learn (.num 0) [(0, 1)] 1 = .ok (false, m2) ∧
      m2.forget 1 [(0, 1)] = .ok (true,
        { mC6n with chunks := updateStore (signatureOf [(0, 1)]) (fun c0 => { c0 with importance := impVal (.num 0) 1 }) mC6n.chunks })) := by
  refine ⟨?_, ?_, ?_, ?_⟩
  · exact (c6_forget_behavior mC6n [(1, 2)] 5).1 (by simp) rfl
  · refine (c6_forget_behavior mC6n [(0, 1)] 5).2.1 cC6n [0] (by simp) rfl rfl rfl ?_
    intro hmem
    norm_num at hmem
  · exact (c6_forget_behavior mC6o [(0, 1)] 5).2.2.1 cC6o 1 (by simp) rfl rfl rfl
  · refine ((c6_forget_behavior mC6n [(0, 1)] 5).2.2.2 (.num 0) 1 (by simp) rfl
      (by simp [mC6n, mkMem])).2 cC6n [0] rfl rfl (List.cons_ne_nil 0 []) (List.pairwise_singleton _ _) ?_
    intro x hx
    have hx0 : x = 0 := by simpa using hx
    subst hx0
    show (0 : ℚ) ≤ 1
    norm_num

theorem c6learn : mC6n.learn (.num 0) [(0, 1)] 1 = .ok (false, mC6mid) := by
  unfold Memory.learn
  simp only [List.isEmpty_cons, Bool.false_eq_true, if_false]
  have hf : mC6n.findChunk (signatureOf [(0, 1)]) = some cC6n := rfl
  rw [hf]
  simp [updateStore, mC6n, mC6mid, mkMem, cC6n, cC6mid, mkChunk, signatureOf,
    insertPair, Chunk.addReference, Chunk.setImportance]

theorem c6forget : mC6mid.forget 1 [(0, 1)] = .ok (true, mC6fin) := by
  unfold Memory.forget
  simp only [List.isEmpty_cons, Bool.false_eq_true, if_false]
  have hf : mC6mid.findChunk (signatureOf [(0, 1)]) = some cC6mid := rfl
  rw [hf]
  have herase : ([0, 1] : List ℚ).erase 1 = [0] := by
    rw [List.erase_cons]
    norm_num
  have hmem : (1 : ℚ) ∈ ([0, 1] : List ℚ) := by norm_num
  have hrefs : cC6mid.refs = .full [0, 1] := rfl
  simp [hrefs, herase, hmem, updateStore, mC6mid, mC6fin, mC6n, mkMem, cC6mid,
    cC6fin, cC6n, mkChunk, signatureOf, insertPair]

/-- Counterexample to C6 as stated: (i) in optimized mode, forgetting at a
time with no recorded reference (the only learn was at time 0, `when` is
5) nevertheless returns `True` and empties the store; (ii) forget is not
the exact inverse of the matching learn: re-learning a chunk of importance
7 with the default importance and then forgetting at the learn time leaves
the importance at 0, not 7. -/
theorem c6_counterexample :
    mC6o.forget 5 [(0, 1)] = .ok (true, { mC6o with chunks := [] }) ∧
    (mC6n.learn (.num 0) [(0, 1)] 1).bind (fun r => r.2.forget 1 [(0, 1)])
      = .ok (true, mC6fin) ∧
    (mC6fin.findChunk (signatureOf [(0, 1)])).map Chunk.importance = some 0 ∧
    (mC6n.findChunk (signatureOf [(0, 1)])).map Chunk.importance = some 7 ∧
    (7 : ℝ) ≠ 0 := by
  refine ⟨?_, ?_, ?_, ?_, by norm_num⟩
  · unfold Memory.forget
    simp only [List.isEmpty_cons, Bool.false_eq_true, if_false]
    have hf : mC6o.findChunk (signatureOf [(0, 1)]) = some cC6o := rfl
    rw [hf]
    have hrefs : cC6o.refs = .opt 1 := rfl
    norm_num [hrefs, removeStore, mC6o, mkMem, cC6o, mkChunk, signatureOf, insertPair]
  · rw [c6learn]
    simp only [Except.bind]
    exact c6forget
  · rfl
  · rfl
